import Mathlib

/-!
Verification of the content-defined chunking core of the `bita` repository.

The Rust sources embedded here (shallowly, over `Nat` and `List Nat`) are:
* `src/chunker.rs`   — `append_to_buf`, `ChunkerParams::new`, `Chunker::preload`,
  `Chunker::scan` (the rolling-hash driven chunk scanner);
* `src/compress_cmd.rs` — the per-chunk payload selection and descriptor
  construction inside `process_chunk`;
* `src/main.rs`      — the `compress` subcommand option validation in `parse_opts`;
* `src/remote_reader.rs` — `RemoteReader::read_at`.

Machine integers (`u32`, `usize`) are modelled as `Nat` with explicit
`% 2^32` wrapping where the Rust code can overflow.  Byte streams are lists
of `Nat`; a fallible `Read` source is a list of read results.  The loops of
`Chunker::scan` are embedded as structurally recursive functions over an
explicit fuel argument; at every call site the fuel is a proven upper bound
on the number of iterations, so the fuel never runs out (this is made
precise by the fuel-irrelevance lemma below).
-/

set_option autoImplicit false

instance {ε α : Type} [DecidableEq ε] [DecidableEq α] : DecidableEq (Except ε α) :=
  fun x y =>
    match x, y with
    | .error a, .error b =>
      if h : a = b then isTrue (by rw [h]) else isFalse fun hc => h (Except.error.inj hc)
    | .ok a, .ok b =>
      if h : a = b then isTrue (by rw [h]) else isFalse fun hc => h (Except.ok.inj hc)
    | .error _, .ok _ => isFalse fun hc => Except.noConfusion hc
    | .ok _, .error _ => isFalse fun hc => Except.noConfusion hc

/-- 32-bit left rotation, used by the BuzHash digest formula. -/
def rotl32 (x n : Nat) : Nat :=
  (((x % 2 ^ 32) <<< (n % 32)) % 2 ^ 32) ||| ((x % 2 ^ 32) >>> (32 - n % 32))

/-- Modelled from the spec: the rolling-hash (BuzHash) state of `buzhash.rs`,
which is not part of the provided sources.  Per the spec's data model it
carries a window size `W`, a 256-entry lookup table derived from a seed, the
window contents, and a count of bytes ingested.  The seed→table PRNG is
unspecified by the spec, so the derived table is taken as a parameter.  The
window is kept as a list (oldest byte first) and the digest is computed from
the spec's invariant `⊕ rotl(tab[window[i]], (W-1-i) mod 32)` rather than
maintained incrementally; the spec states both give the same digest. -/
structure BuzHash where
  window_size : Nat
  tab : Nat → Nat
  window : List Nat
  count : Nat

/-- Modelled from the spec: construct a BuzHash with an empty window.  The
table stands in for the seed-derived lookup table. -/
def BuzHash.new (window_size : Nat) (tab : Nat → Nat) : BuzHash :=
  { window_size := window_size, tab := tab, window := [], count := 0 }

/-- Modelled from the spec: `valid()` is true once at least `W` bytes have
been ingested. -/
def BuzHash.valid (h : BuzHash) : Bool :=
  h.window_size ≤ h.count

/-- Modelled from the spec: `input(b)` advances the window by one byte,
appending `b` and evicting the oldest byte once the window is full. -/
def BuzHash.input (h : BuzHash) (b : Nat) : BuzHash :=
  let w := h.window ++ [b]
  { h with window := w.drop (w.length - h.window_size), count := h.count + 1 }

/-- Modelled from the spec: `init(b)` ingests one byte while the window is
being filled.  The spec's wording suggests a reset on every call, but the
initialization loop of `Chunker::scan` (chunker.rs lines 123-128) calls
`init` once per byte until `valid()` holds, and the repository's own
regression tests in chunker.rs require that loop to finish after exactly
`W` bytes; hence `init` must accumulate bytes like `input`. -/
def BuzHash.init (h : BuzHash) (b : Nat) : BuzHash :=
  h.input b

/-- Modelled from the spec: `sum()` returns the digest
`⊕_{i<W} rotl(tab[window[i]], (W-1-i) mod 32)` (spec §3 invariant). -/
def BuzHash.sum (h : BuzHash) : Nat :=
  h.window.enum.foldl
    (fun acc p => acc ^^^ rotl32 (h.tab p.2) ((h.window.length - 1 - p.1) % 32)) 0

/-- A chunk as reported by `Chunker::scan`'s callback: absolute source
offset and the chunk bytes (chunker.rs lines 28-32). -/
structure Chunk where
  offset : Nat
  data : List Nat
deriving DecidableEq, Repr

/-- One result of a `source.read(..)` call: either some bytes (possibly
empty, which the chunker treats as EOF when seen first in a refill) or an
I/O error, identified by a numeric token since the chunker only passes it
through. -/
inductive ReadRes where
  | bytes (data : List Nat)
  | fail (e : Nat)
deriving DecidableEq, Repr

/-- chunker.rs line 6: `CHUNKER_BUF_SIZE = 1024 * 1024`. -/
def CHUNKER_BUF_SIZE : Nat := 1024 * 1024

/-- Embedding of `append_to_buf` (chunker.rs lines 8-26): read from the
source until `count` bytes have been appended to `buf` or a read returns 0
(EOF break) or an error.  The source is the list of pending read results;
a block longer than the remaining capacity is split, the unread tail
staying at the front of the source (a reader hands out at most the
capacity it is given per call).  Returns the remaining source together
with either the error (propagated verbatim by `?`) or the grown buffer and
the total number of bytes read. -/
def appendToBuf : List ReadRes → List Nat → Nat → List ReadRes × Except Nat (List Nat × Nat)
  | [], buf, _ => ([], .ok (buf, 0))
  | .fail e :: rest, buf, count =>
    if count = 0 then (.fail e :: rest, .ok (buf, 0))
    else (rest, .error e)
  | .bytes data :: rest, buf, count =>
    if count = 0 then (.bytes data :: rest, .ok (buf, 0))
    else
      let d := data.take count
      if d.length = 0 then (rest, .ok (buf, 0))
      else if d.length < count then
        match appendToBuf rest (buf ++ d) (count - d.length) with
        | (rest2, .error e) => (rest2, .error e)
        | (rest2, .ok (buf2, rc)) => (rest2, .ok (buf2, d.length + rc))
      else
        (if data.length ≤ count then rest else .bytes (data.drop count) :: rest,
         .ok (buf ++ d, d.length))

/-- Size measure of a pending source: total bytes plus number of reads.
Every refill that reads at least one byte strictly decreases it, which
bounds the number of iterations of the outer `scan` loop. -/
def ReadRes.size : ReadRes → Nat
  | .bytes d => d.length + 1
  | .fail _ => 1

def measureSrc (src : List ReadRes) : Nat :=
  (src.map ReadRes.size).sum

/-- 32-bit wrapping subtraction (`u32` subtraction in release builds). -/
def wrappingSub32 (a b : Nat) : Nat :=
  (a + 2 ^ 32 - b % 2 ^ 32) % 2 ^ 32

/-- The filter mask computed by `ChunkerParams::new` (chunker.rs line 52):
`!0u32 >> (32 - chunk_filter_bits)`.  For `chunk_filter_bits ∉ [1, 32]`
the Rust expression overflows; debug builds panic and release builds wrap
(the subtraction wraps mod 2^32 and the shift amount is masked mod 32),
which is the semantics embedded here. -/
def filterMask (bits : Nat) : Nat :=
  (2 ^ 32 - 1) >>> (wrappingSub32 32 bits % 32)

/-- `ChunkerParams` (chunker.rs lines 34-41). -/
structure ChunkerParams where
  buzhash : BuzHash
  filter_mask : Nat
  filter_bits : Nat
  min_chunk_size : Nat
  max_chunk_size : Nat

/-- `ChunkerParams::new` (chunker.rs lines 43-58). -/
def ChunkerParams.new (chunk_filter_bits min_chunk_size max_chunk_size : Nat)
    (buzhash : BuzHash) : ChunkerParams :=
  { filter_bits := chunk_filter_bits
    filter_mask := filterMask chunk_filter_bits
    min_chunk_size := min_chunk_size
    max_chunk_size := max_chunk_size
    buzhash := buzhash }

/-- The cut decision taken at each scanned position (chunker.rs lines
143-160): a boundary is placed when `chunk_length >= min_chunk_size` and
(`chunk_length >= max_chunk_size` or `hash | filter_mask == hash`). -/
def cutDecision (minS maxS mask chunkLength hash : Nat) : Bool :=
  decide (minS ≤ chunkLength) &&
    (decide (maxS ≤ chunkLength) || decide (hash ||| mask = hash))

/-- The mutable scanning state of `Chunker::scan` (chunker.rs lines
96-110): the rolling hash, the read buffer `source_buf`, the buffer index,
the absolute source index, the current chunk's start offset, and the
chunks reported so far (the callback trace, in order). -/
structure ScanState where
  buzhash : BuzHash
  source_buf : List Nat
  buf_index : Nat
  source_index : Nat
  chunk_start : Nat
  chunks : List Chunk

/-- The hash initialization loop (chunker.rs lines 123-128): feed bytes via
`init` until the hash window is valid or the buffer is exhausted.  The fuel
is given as `source_buf.length - buf_index` at the call site, an upper
bound on the iterations. -/
def initLoop : Nat → ScanState → ScanState
  | 0, s => s
  | fuel + 1, s =>
    if h : s.buzhash.valid = false ∧ s.buf_index < s.source_buf.length then
      initLoop fuel
        { s with
          buzhash := s.buzhash.init (s.source_buf.get ⟨s.buf_index, h.2⟩)
          buf_index := s.buf_index + 1
          source_index := s.source_index + 1 }
    else s

/-- The inner scan loop (chunker.rs lines 131-162): consume one buffered
byte per iteration, feed the rolling hash once the chunk is long enough,
and cut a chunk when `cutDecision` fires, draining its bytes from the
front of the buffer.  The fuel is `source_buf.length - buf_index` at the
call site; each iteration decreases that quantity by exactly one. -/
def scanBuf (minS maxS mask limit : Nat) : Nat → ScanState → ScanState
  | 0, s => s
  | fuel + 1, s =>
    if h : s.buf_index < s.source_buf.length then
      let val := s.source_buf.get ⟨s.buf_index, h⟩
      let chunk_end := s.source_index + 1
      let chunk_length := chunk_end - s.chunk_start
      let bh := if limit ≤ chunk_length then s.buzhash.input val else s.buzhash
      if cutDecision minS maxS mask chunk_length bh.sum then
        scanBuf minS maxS mask limit fuel
          { buzhash := bh
            source_buf := s.source_buf.drop chunk_length
            buf_index := 0
            source_index := s.source_index + 1
            chunk_start := chunk_end
            chunks := s.chunks ++ [⟨s.chunk_start, s.source_buf.take chunk_length⟩] }
      else
        scanBuf minS maxS mask limit fuel
          { s with
            buzhash := bh
            buf_index := s.buf_index + 1
            source_index := s.source_index + 1 }
    else s

/-- The outer loop of `Chunker::scan` (chunker.rs lines 111-164): refill the
buffer from the source; on a zero-byte refill (EOF) emit any residual
buffer as the final chunk and stop; on an error stop with the error (no
further callbacks, the chunks reported so far unchanged); otherwise run the
initialization loop and the inner scan loop and repeat. -/
def scanLoop (minS maxS mask limit : Nat) :
    Nat → List ReadRes → ScanState → List Chunk × Except Nat Unit
  | 0, _, s => (s.chunks, .ok ())
  | fuel + 1, src, s =>
    match appendToBuf src s.source_buf CHUNKER_BUF_SIZE with
    | (_, .error e) => (s.chunks, .error e)
    | (rest, .ok (buf, rc)) =>
      if rc = 0 then
        (if buf.isEmpty then s.chunks else s.chunks ++ [⟨s.chunk_start, buf⟩], .ok ())
      else
        let s1 := initLoop (buf.length - s.buf_index) { s with source_buf := buf }
        let s2 := scanBuf minS maxS mask limit (s1.source_buf.length - s1.buf_index) s1
        scanLoop minS maxS mask limit fuel rest s2

/-- chunker.rs lines 104-109: the rolling hash only receives input once the
chunk length reaches `max(0, min_chunk_size - window_size)`. -/
def buzhashInputLimit (p : ChunkerParams) : Nat :=
  if p.buzhash.window_size ≤ p.min_chunk_size then
    p.min_chunk_size - p.buzhash.window_size
  else 0

/-- The state of a fresh `Chunker` (chunker.rs lines 78-94) after
`Chunker::new(params, source)` followed by `preload(source_buf)`; for a
plain scan `source_buf = []`. -/
def Chunker.initState (p : ChunkerParams) (source_buf : List Nat) : ScanState :=
  { buzhash := p.buzhash
    source_buf := source_buf
    buf_index := 0
    source_index := 0
    chunk_start := 0
    chunks := [] }

/-- `Chunker::scan` on a chunker whose buffer holds the preloaded bytes
`source_buf` (empty for a plain scan).  Returns the callback trace (the
emitted chunks, in order) and `Ok`/the propagated read error.  The fuel
`measureSrc source + 1` strictly dominates the number of outer-loop
iterations. -/
def Chunker.scan (p : ChunkerParams) (source_buf : List Nat) (source : List ReadRes) :
    List Chunk × Except Nat Unit :=
  scanLoop p.min_chunk_size p.max_chunk_size p.filter_mask (buzhashInputLimit p)
    (measureSrc source + 1) source (Chunker.initState p source_buf)

/-- Concatenation of the chunk payloads in emission order. -/
def joinData (chunks : List Chunk) : List Nat :=
  (chunks.map Chunk.data).flatten

/-- The byte stream a (well-formed) source will deliver. -/
def joinSrc (src : List ReadRes) : List Nat :=
  (src.map fun r => match r with | .bytes d => d | .fail _ => []).flatten

/-- A conforming source: every read yields at least one byte (a `Read`
returns 0 exactly at EOF, per the spec's source contract) and never fails. -/
def wfSrc (src : List ReadRes) : Bool :=
  src.all fun r => match r with | .bytes d => !d.isEmpty | .fail _ => false

/-- The emitted chunks tile the stream: each chunk starts where the
previous one ended, the first at offset `off`. -/
def chunksContiguous : Nat → List Chunk → Bool
  | _, [] => true
  | off, c :: rest => decide (c.offset = off) && chunksContiguous (off + c.data.length) rest

/-- The outcome (`Ok` or the first surfaced read error) of driving
`append_to_buf` the way `Chunker::scan` does, as a function of the source's
read results alone: repeatedly refill with `CHUNKER_BUF_SIZE`; stop with
`Ok` at a zero-byte refill and with `Err e` when a read fails.  Used to
state that `scan`'s result component depends only on the reads. -/
def scanReadsResult : Nat → List ReadRes → Except Nat Unit
  | 0, _ => .ok ()
  | fuel + 1, src =>
    match appendToBuf src [] CHUNKER_BUF_SIZE with
    | (_, .error e) => .error e
    | (rest, .ok (_, rc)) => if rc = 0 then .ok () else scanReadsResult fuel rest

/-- Reference byte-at-a-time scanner, used to state that `scan`'s chunk
output over a conforming source does not depend on how the stream is
partitioned into reads and refills.  It processes the remaining stream
`future` one byte at a time with the same per-byte dispatch as `scan`'s
loops: while the hash window is still filling the byte goes to `init` with
no cut check (the initialization loop), afterwards the byte is scanned
with the cut decision of the inner loop; `pending` holds the bytes of the
current chunk scanned so far (so the chunk length at the next byte is
`pending.length + 1`), `chunkStart` its start offset, and `out` the chunks
reported so far.  At end of stream the non-empty pending bytes are flushed
as the final chunk, mirroring the EOF branch of the outer loop. -/
def byteScan (minS maxS mask limit : Nat) :
    BuzHash → Nat → List Nat → List Nat → List Chunk → List Chunk
  | _, chunkStart, pending, [], out =>
    if pending.isEmpty then out else out ++ [⟨chunkStart, pending⟩]
  | bh, chunkStart, pending, b :: future, out =>
    if bh.valid = false then
      byteScan minS maxS mask limit (bh.init b) chunkStart (pending ++ [b]) future out
    else
      if cutDecision minS maxS mask (pending.length + 1)
          (if limit ≤ pending.length + 1 then bh.input b else bh).sum then
        byteScan minS maxS mask limit
          (if limit ≤ pending.length + 1 then bh.input b else bh)
          (chunkStart + (pending.length + 1)) [] future
          (out ++ [⟨chunkStart, pending ++ [b]⟩])
      else
        byteScan minS maxS mask limit
          (if limit ≤ pending.length + 1 then bh.input b else bh)
          chunkStart (pending ++ [b]) future out

/-- The byte-level reading of a `ScanState` together with the stream `T`
that the pending source will still deliver: the scanned-but-uncut prefix
of the buffer is the pending chunk, and the unscanned buffered bytes
followed by `T` are the future of the stream.  Used to state that the
loops of `scan` refine `byteScan`. -/
def scanAbs (minS maxS mask limit : Nat) (s : ScanState) (T : List Nat) : List Chunk :=
  byteScan minS maxS mask limit s.buzhash s.chunk_start
    (s.source_buf.take s.buf_index) (s.source_buf.drop s.buf_index ++ T) s.chunks

/-! ### compress_cmd.rs: per-chunk processing -/

/-- The data reaching `process_chunk` (compress_cmd.rs lines 64-99) for one
unique chunk: source offset, original bytes, compressed bytes, strong-hash
digest. -/
structure CompressedChunk where
  offset : Nat
  data : List Nat
  cdata : List Nat
  hash : List Nat
deriving DecidableEq, Repr

/-- compress_cmd.rs lines 68-72: store the original bytes if
`cdata.len() > data.len()`, otherwise the compressed bytes. -/
def storeData (c : CompressedChunk) : List Nat :=
  if c.data.length < c.cdata.length then c.data else c.cdata

/-- The chunk descriptor pushed by `process_chunk` (compress_cmd.rs lines
88-95). -/
structure ChunkDescriptor where
  checksum : List Nat
  source_size : Nat
  archive_offset : Nat
  archive_size : Nat
deriving DecidableEq, Repr

/-- compress_cmd.rs lines 66 and 88-95: descriptor construction for one
unique chunk, given the configured hash length and the current archive
offset (a `u64` running counter, so a value below 2^64).  The descriptor
stores `comp_chunk.data.len() as u32` and `store_data.len() as u32`
(lines 90 and 92): the `as u32` casts truncate, modelled as `% 2^32`. -/
def processChunkDescriptor (hashLength archiveOffset : Nat) (c : CompressedChunk) :
    ChunkDescriptor :=
  { checksum := c.hash.take hashLength
    source_size := c.data.length % 2 ^ 32
    archive_offset := archiveOffset
    archive_size := (storeData c).length % 2 ^ 32 }

/-! ### main.rs: compress option validation -/

/-- Bit length of `n < 2^64`: one plus the position of the highest set
bit, 0 for `n = 0`. -/
def bitLen64 (n : Nat) : Nat :=
  (List.range 64).foldl (fun acc i => if 2 ^ i ≤ n then i + 1 else acc) 0

/-- `usize::leading_zeros` on a 64-bit platform, for `n < 2^64`. -/
def leadingZeros64 (n : Nat) : Nat :=
  64 - bitLen64 n

/-- The compress-subcommand validation slice of `parse_opts` (main.rs lines
196-238) as a function of the already-parsed numeric options:
`chunk_filter_bits` is derived as `avg_chunk_size.leading_zeros()`; the
only rejections are `min > avg`, `max < avg` and a compression level
outside 1..=19.  `hash_length` is parsed but not range-checked. -/
structure CompressValidated where
  chunk_filter_bits : Nat
  min_chunk_size : Nat
  max_chunk_size : Nat
  hash_window_size : Nat
  hash_length : Nat
  compression_level : Nat
deriving DecidableEq, Repr

def parseOptsCompress (avg_chunk_size min_chunk_size max_chunk_size hash_window_size
    hash_length compression_level : Nat) : Except String CompressValidated :=
  let chunk_filter_bits := leadingZeros64 avg_chunk_size
  if min_chunk_size > avg_chunk_size then .error "min-chunk-size > avg-chunk-size"
  else if max_chunk_size < avg_chunk_size then .error "max-chunk-size < avg-chunk-size"
  else if compression_level < 1 ∨ compression_level > 19 then
    .error "compression level not within range"
  else
    .ok
      { chunk_filter_bits := chunk_filter_bits
        min_chunk_size := min_chunk_size
        max_chunk_size := max_chunk_size
        hash_window_size := hash_window_size
        hash_length := hash_length
        compression_level := compression_level }

/-! ### remote_reader.rs: `RemoteReader::read_at` -/

/-- `RemoteReader::read_at` (remote_reader.rs lines 22-51).  `transfer` is
the outcome of the curl transfer: an error, or the concatenation of all
bytes handed to the write callback.  On an empty buffer the function
returns `Ok` without transferring.  On success the loop copies `data[i]`
into `buf[i]` for `i < data.len()`, i.e. it overwrites a prefix of the
buffer and leaves the tail as it was; this is represented as
`data ++ buf.drop data.length` (when the server delivers more bytes than
the buffer holds, the Rust loop panics on an out-of-bounds index — that
case is outside this model). -/
def RemoteReader.readAt (buf : List Nat) (transfer : Except Nat (List Nat)) :
    Except Nat (List Nat) :=
  if buf.length = 0 then .ok buf
  else
    match transfer with
    | .error e => .error e
    | .ok data => .ok (data ++ buf.drop data.length)

/-! ### Shared concrete instances for witnesses and counterexamples -/

/-- A concrete BuzHash table (any table works; the claims below do not
depend on particular digest values). -/
def tabZero : Nat → Nat := fun _ => 0

/-- Window 3, min 1, max 2, filter_bits 32 (mask all-ones, so the digest
test never fires for the zero table). -/
def paramsW3 : ChunkerParams := ChunkerParams.new 32 1 2 (BuzHash.new 3 tabZero)

/-- Window 1, min 3, max 2 (min above max). -/
def paramsMinAboveMax : ChunkerParams := ChunkerParams.new 32 3 2 (BuzHash.new 1 tabZero)

/-- filter_bits 0, min 1, max 2, window 1. -/
def paramsBitsZero : ChunkerParams := ChunkerParams.new 0 1 2 (BuzHash.new 1 tabZero)

/-- Window 1, min 1, max 2, filter_bits 32. -/
def paramsW1 : ChunkerParams := ChunkerParams.new 32 1 2 (BuzHash.new 1 tabZero)

/-- Window 5, min 3, max 640, filter_bits 5 (the repository's small-min
regression parameters). -/
def paramsSmall : ChunkerParams := ChunkerParams.new 5 3 640 (BuzHash.new 5 tabZero)

/-! ### C1: the cut-point rule -/

/-- C1: during `Chunker::scan` a chunk boundary is placed at 1-indexed
chunk length `L` exactly when `L ≥ max_chunk_size`, or `L ≥ min_chunk_size`
and the digest `d` satisfies `d ||| filter_mask = d`, where
`filter_mask = !0u32 >> (32 - filter_bits)`; otherwise scanning continues.
`cutDecision` is the boundary decision evaluated by `scanBuf` at every
scanned position (chunker.rs lines 143-160), and the equivalence holds for
any parameter set satisfying the spec's invariant
`min_chunk_size ≤ max_chunk_size` and `filter_bits ∈ [1, 32]`. -/
theorem chunker_cut_rule (bits mn mx L d : Nat) (hb1 : 1 ≤ bits) (hb2 : bits ≤ 32)
    (hmm : mn ≤ mx) :
    filterMask bits = (2 ^ 32 - 1) >>> (32 - bits) ∧
    (cutDecision mn mx (filterMask bits) L d = true ↔
      mx ≤ L ∨ (mn ≤ L ∧ d ||| filterMask bits = d)) := by
  constructor
  · unfold filterMask wrappingSub32
    congr 1
    have h32 : (2 : Nat) ^ 32 = 4294967296 := by norm_num
    omega
  · simp only [cutDecision, Bool.and_eq_true, Bool.or_eq_true, decide_eq_true_eq]
    constructor
    · rintro ⟨hmin, hmx | hmask⟩
      · exact Or.inl hmx
      · exact Or.inr ⟨hmin, hmask⟩
    · rintro (hmx | ⟨hmin, hmask⟩)
      · exact ⟨le_trans hmm hmx, Or.inl hmx⟩
      · exact ⟨hmin, Or.inr hmask⟩

/-- Witness for C1 at `filter_bits = 5`, `min = 3`, `max = 640`, `L = 700`,
digest 0. -/
theorem chunker_cut_rule_witness :
    filterMask 5 = (2 ^ 32 - 1) >>> (32 - 5) ∧
    (cutDecision 3 640 (filterMask 5) 700 0 = true ↔
      640 ≤ 700 ∨ (3 ≤ 700 ∧ 0 ||| filterMask 5 = 0)) :=
  chunker_cut_rule 5 3 640 700 0 (by decide) (by decide) (by decide)

/-! ### C4: filter_bits = 0 -/

/-- C4 counterexample: with `filter_bits = 0` the computed `filter_mask`
is `0xFFFFFFFF`, not 0 (the u32 shift amount 32 wraps in release builds;
debug builds panic), the match predicate fails for digest 0, and scanning
three zero bytes with `min = 1`, `max = 2` cuts a first chunk of length 2,
not `min_chunk_size = 1`. -/
theorem filter_bits_zero_counterexample :
    paramsBitsZero.filter_mask = 4294967295 ∧
    ¬ paramsBitsZero.filter_mask = 0 ∧
    ¬ ((0 : Nat) ||| paramsBitsZero.filter_mask = 0) ∧
    (Chunker.scan paramsBitsZero [] [.bytes [0, 0, 0]]).1 = [⟨0, [0, 0]⟩, ⟨2, [0]⟩] := by
  decide

/-- C4 (amended): with `filter_bits = 0`, `ChunkerParams` yields
`filter_mask = 2^32 - 1` under Rust's release (wrapping) shift semantics
(debug builds panic on the overflowing shift), and the cut-point match
predicate holds for a 32-bit digest exactly when the digest is all ones —
so chunks are in general cut at `max_chunk_size`, not at
`min_chunk_size`. -/
theorem filter_bits_zero_mask (d : Nat) (hd : d < 2 ^ 32) :
    filterMask 0 = 2 ^ 32 - 1 ∧ ((d ||| filterMask 0 = d) ↔ d = 2 ^ 32 - 1) := by
  have hm : filterMask 0 = 2 ^ 32 - 1 := by decide
  refine ⟨hm, ?_⟩
  rw [hm]
  constructor
  · intro h
    apply Nat.eq_of_testBit_eq
    intro i
    rw [Nat.testBit_two_pow_sub_one]
    by_cases hi : i < 32
    · have h2 : (d ||| (2 ^ 32 - 1)).testBit i = d.testBit i := by rw [h]
      rw [Nat.testBit_or, Nat.testBit_two_pow_sub_one, decide_eq_true hi,
        Bool.or_true] at h2
      rw [← h2, decide_eq_true hi]
    · have hfalse : d.testBit i = false :=
        Nat.testBit_lt_two_pow
          (lt_of_lt_of_le hd (Nat.pow_le_pow_right (by norm_num) (le_of_not_lt hi)))
      rw [hfalse, decide_eq_false hi]
  · intro h
    rw [h, Nat.or_self]

/-- Witness for C4 (amended) at digest 5. -/
theorem filter_bits_zero_mask_witness :
    filterMask 0 = 2 ^ 32 - 1 ∧ (((5 : Nat) ||| filterMask 0 = 5) ↔ (5 : Nat) = 2 ^ 32 - 1) :=
  filter_bits_zero_mask 5 (by norm_num)

/-! ### C8: stored payload selection in the compress pipeline -/

/-- C8 counterexample: a chunk whose compressed bytes have the same length
as the original (`compressed length ≥ original length` with equality) is
stored as the compressed bytes, not the original bytes as the claim
states. -/
theorem compress_store_tie_counterexample :
    (CompressedChunk.mk 0 [1, 2] [3, 4] []).data.length ≤
      (CompressedChunk.mk 0 [1, 2] [3, 4] []).cdata.length ∧
    storeData (CompressedChunk.mk 0 [1, 2] [3, 4] []) ≠
      (CompressedChunk.mk 0 [1, 2] [3, 4] []).data := by
  decide

/-- C8 (amended): the stored payload is the original chunk bytes exactly
when the compressed bytes are strictly longer (`cdata.len() > data.len()`),
and the compressed bytes otherwise (including ties); the descriptor's
`archive_size` is the stored payload's length truncated to `u32` and
`source_size` the original length truncated to `u32` (the `as u32` casts
on compress_cmd.rs lines 90 and 92), equal to the untruncated lengths
whenever those are below `2^32` (compress_cmd.rs lines 64-99). -/
theorem compress_store_rule (c : CompressedChunk) (hashLength archiveOffset : Nat) :
    (c.data.length < c.cdata.length → storeData c = c.data) ∧
    (c.cdata.length ≤ c.data.length → storeData c = c.cdata) ∧
    (processChunkDescriptor hashLength archiveOffset c).archive_size =
      (storeData c).length % 2 ^ 32 ∧
    (processChunkDescriptor hashLength archiveOffset c).source_size =
      c.data.length % 2 ^ 32 ∧
    ((storeData c).length < 2 ^ 32 →
      (processChunkDescriptor hashLength archiveOffset c).archive_size =
        (storeData c).length) ∧
    (c.data.length < 2 ^ 32 →
      (processChunkDescriptor hashLength archiveOffset c).source_size = c.data.length) := by
  refine ⟨fun h => ?_, fun h => ?_, rfl, rfl, fun h => ?_, fun h => ?_⟩
  · simp [storeData, h]
  · simp [storeData, Nat.not_lt.mpr h]
  · show (storeData c).length % 2 ^ 32 = (storeData c).length
    exact Nat.mod_eq_of_lt h
  · show c.data.length % 2 ^ 32 = c.data.length
    exact Nat.mod_eq_of_lt h

/-- Witness for C8 (amended): a chunk that compression expanded keeps its
original bytes, and its descriptor sizes match (the `u32` truncation is
the identity on these small lengths). -/
theorem compress_store_rule_witness :
    storeData (CompressedChunk.mk 0 [5] [7, 8] [1, 2, 3]) =
      (CompressedChunk.mk 0 [5] [7, 8] [1, 2, 3]).data ∧
    (processChunkDescriptor 2 40 (CompressedChunk.mk 0 [5] [7, 8] [1, 2, 3])).archive_size =
      (storeData (CompressedChunk.mk 0 [5] [7, 8] [1, 2, 3])).length ∧
    (processChunkDescriptor 2 40 (CompressedChunk.mk 0 [5] [7, 8] [1, 2, 3])).source_size =
      (CompressedChunk.mk 0 [5] [7, 8] [1, 2, 3]).data.length :=
  ⟨(compress_store_rule (CompressedChunk.mk 0 [5] [7, 8] [1, 2, 3]) 2 40).1 (by decide),
   (compress_store_rule (CompressedChunk.mk 0 [5] [7, 8] [1, 2, 3]) 2 40).2.2.2.2.1
     (by decide),
   (compress_store_rule (CompressedChunk.mk 0 [5] [7, 8] [1, 2, 3]) 2 40).2.2.2.2.2
     (by decide)⟩

/-! ### C9: CLI validation of the compress options -/

/-- C9 counterexample: the default configuration `avg = 64 KiB`,
`min = 16 KiB`, `max = 16 MiB` with `hash_length = 0` is accepted by
`parse_opts`, yet its derived `chunk_filter_bits` is 47 (outside [1, 32],
since `leading_zeros` runs on 64-bit `usize`) and its `hash_length` 0 is
outside [1, 64]: the CLI performs neither of those rejections. -/
theorem parse_opts_counterexample :
    parseOptsCompress 65536 16384 16777216 16 0 6 =
      .ok (CompressValidated.mk 47 16384 16777216 16 0 6) ∧
    ¬ (47 : Nat) ≤ 32 ∧ ¬ (1 : Nat) ≤ 0 := by
  decide

/-- C9 (amended): the compress CLI accepts a configuration if and only if
`min_chunk_size ≤ avg_chunk_size ≤ max_chunk_size` and the compression
level is within 1..=19; `chunk_filter_bits` is derived (unchecked) as
`avg_chunk_size.leading_zeros()` on 64-bit `usize` and `hash_length` is
passed through unchecked (main.rs lines 196-238). -/
theorem parse_opts_validation (avg mn mx w hl lv : Nat) :
    ((∃ c, parseOptsCompress avg mn mx w hl lv = .ok c) ↔
      (mn ≤ avg ∧ avg ≤ mx ∧ 1 ≤ lv ∧ lv ≤ 19)) ∧
    (∀ c, parseOptsCompress avg mn mx w hl lv = .ok c →
      c.chunk_filter_bits = leadingZeros64 avg ∧ c.min_chunk_size = mn ∧
      c.max_chunk_size = mx ∧ c.hash_length = hl) := by
  unfold parseOptsCompress
  split_ifs with h1 h2 h3
  · constructor
    · simp only [reduceCtorEq, exists_false, false_iff]
      omega
    · intro c hc
      exact absurd hc (by simp)
  · constructor
    · simp only [reduceCtorEq, exists_false, false_iff]
      omega
    · intro c hc
      exact absurd hc (by simp)
  · constructor
    · simp only [reduceCtorEq, exists_false, false_iff]
      omega
    · intro c hc
      exact absurd hc (by simp)
  · constructor
    · simp only [Except.ok.injEq, exists_eq', true_iff]
      omega
    · intro c hc
      injection hc with h
      subst h
      exact ⟨rfl, rfl, rfl, rfl⟩

/-- Witness for C9 (amended): the default sizes with a valid level are
accepted. -/
theorem parse_opts_validation_witness :
    ∃ c, parseOptsCompress 65536 16384 16777216 16 64 6 = .ok c :=
  (parse_opts_validation 65536 16384 16777216 16 64 6).1.mpr (by decide)

/-! ### C10: RemoteReader::read_at on short transfers -/

/-- C10: when the HTTP transfer succeeds, `RemoteReader::read_at` returns
`Ok(())` even if the server delivered fewer bytes than the buffer's length;
only the prefix of the buffer of the delivered length is overwritten, the
tail keeps its previous contents, and no error is reported
(remote_reader.rs lines 22-51). -/
theorem remote_read_at_short (buf data : List Nat) (h : data.length ≤ buf.length) :
    RemoteReader.readAt buf (.ok data) = .ok (data ++ buf.drop data.length) ∧
    (data ++ buf.drop data.length).length = buf.length ∧
    (data ++ buf.drop data.length).take data.length = data ∧
    (data ++ buf.drop data.length).drop data.length = buf.drop data.length := by
  refine ⟨?_, ?_, ?_, ?_⟩
  · unfold RemoteReader.readAt
    rcases buf with _ | ⟨b, bs⟩
    · have hdata : data = [] := List.length_eq_zero.mp (Nat.le_zero.mp h)
      simp [hdata]
    · simp
  · simp only [List.length_append, List.length_drop]
    omega
  · exact List.take_left data (buf.drop data.length)
  · exact List.drop_left data (buf.drop data.length)

/-- Witness for C10: a 3-byte buffer receiving a 1-byte transfer. -/
theorem remote_read_at_short_witness :
    RemoteReader.readAt [5, 6, 7] (.ok [9]) = .ok ([9] ++ [5, 6, 7].drop 1) ∧
    ([9] ++ [5, 6, 7].drop 1).length = 3 ∧
    ([9] ++ [5, 6, 7].drop 1).take 1 = [9] ∧
    ([9] ++ [5, 6, 7].drop 1).drop 1 = [5, 6, 7].drop 1 := by
  have hlen : ([5, 6, 7] : List Nat).length = 3 := rfl
  exact hlen ▸ remote_read_at_short [5, 6, 7] [9] (by decide)

/-! ### Refill lemmas -/

/-- A single read delivering `x` (nonempty, within capacity) fills the
buffer with `x` and reports `x.length` bytes. -/
theorem appendToBuf_single (x buf : List Nat) (count : Nat) (hx : x ≠ [])
    (hlen : x.length ≤ count) :
    appendToBuf [.bytes x] buf count = ([], .ok (buf ++ x, x.length)) := by
  have hxpos : 0 < x.length := List.length_pos.mpr hx
  have hc0 : ¬ count = 0 := by omega
  have htake : x.take count = x := List.take_of_length_le hlen
  unfold appendToBuf
  rw [if_neg hc0]
  simp only [htake]
  rw [if_neg (by omega : ¬ x.length = 0)]
  by_cases hlt : x.length < count
  · rw [if_pos hlt]
    unfold appendToBuf
    simp
  · rw [if_neg hlt, if_pos hlen]

/-- One outer iteration whose refill returned an error: the error is
returned with the chunks reported so far. -/
theorem scanLoop_step_err (minS maxS mask limit fuel : Nat) (src rest : List ReadRes)
    (s : ScanState) (e : Nat)
    (happ : appendToBuf src s.source_buf CHUNKER_BUF_SIZE = (rest, .error e)) :
    scanLoop minS maxS mask limit (fuel + 1) src s = (s.chunks, .error e) := by
  unfold scanLoop
  split
  · rename_i heq
    rw [happ] at heq
    injection heq with h1 h2
    injection h2 with h3
    rw [h3]
  · rename_i heq
    rw [happ] at heq
    injection heq with h1 h2
    exact absurd h2 (by simp)

/-- One outer iteration whose refill read zero bytes: EOF, emitting the
residual buffer when non-empty. -/
theorem scanLoop_step_eof (minS maxS mask limit fuel : Nat) (src rest : List ReadRes)
    (s : ScanState) (buf : List Nat)
    (happ : appendToBuf src s.source_buf CHUNKER_BUF_SIZE = (rest, .ok (buf, 0))) :
    scanLoop minS maxS mask limit (fuel + 1) src s =
      (if buf.isEmpty then s.chunks else s.chunks ++ [⟨s.chunk_start, buf⟩], .ok ()) := by
  unfold scanLoop
  split
  · rename_i heq
    rw [happ] at heq
    injection heq with h1 h2
    exact absurd h2 (by simp)
  · rename_i rest' buf' rc' heq
    rw [happ] at heq
    injection heq with h1 h2
    injection h2 with h3
    injection h3 with h4 h5
    subst h4
    rw [if_pos h5.symm]

/-- One outer iteration whose refill read `rc ≠ 0` bytes: initialize the
hash, run the inner scan loop, and continue with the remaining source. -/
theorem scanLoop_step_ok (minS maxS mask limit fuel : Nat) (src rest : List ReadRes)
    (s : ScanState) (buf : List Nat) (rc : Nat)
    (happ : appendToBuf src s.source_buf CHUNKER_BUF_SIZE = (rest, .ok (buf, rc)))
    (hrc : rc ≠ 0) :
    scanLoop minS maxS mask limit (fuel + 1) src s =
      scanLoop minS maxS mask limit fuel rest
        (scanBuf minS maxS mask limit
          ((initLoop (buf.length - s.buf_index) { s with source_buf := buf }).source_buf.length -
            (initLoop (buf.length - s.buf_index) { s with source_buf := buf }).buf_index)
          (initLoop (buf.length - s.buf_index) { s with source_buf := buf })) := by
  conv_lhs => rw [scanLoop]
  split
  · rename_i heq
    rw [happ] at heq
    injection heq with h1 h2
    exact absurd h2 (by simp)
  · rename_i rest' buf' rc' heq
    rw [happ] at heq
    injection heq with h1 h2
    injection h2 with h3
    injection h3 with h4 h5
    subst h1
    subst h4
    subst h5
    rw [if_neg hrc]

/-- With an exhausted source, one more outer iteration hits EOF and emits
the residual buffer. -/
theorem scanLoop_nil (minS maxS mask limit fuel : Nat) (s : ScanState) (hf : 0 < fuel) :
    scanLoop minS maxS mask limit fuel [] s =
      (if s.source_buf.isEmpty then s.chunks else s.chunks ++ [⟨s.chunk_start, s.source_buf⟩],
       .ok ()) := by
  cases fuel with
  | zero => omega
  | succ n => exact scanLoop_step_eof minS maxS mask limit n [] [] s s.source_buf rfl

/-! ### C6: preload versus scanning the concatenation -/

/-- C6 counterexample: preloading three bytes and scanning an empty source
emits the preloaded bytes as one chunk without scanning them, while a
source that yields the same three bytes is scanned and cut; the two runs
differ (window 1, min 1, max 2, filter_bits 32). -/
theorem chunker_preload_counterexample :
    Chunker.scan paramsW1 [0, 0, 0] [] = ([⟨0, [0, 0, 0]⟩], .ok ()) ∧
    Chunker.scan paramsW1 [] [.bytes [0, 0, 0]] = ([⟨0, [0, 0]⟩, ⟨2, [0]⟩], .ok ()) ∧
    Chunker.scan paramsW1 [0, 0, 0] [] ≠ Chunker.scan paramsW1 [] [.bytes [0, 0, 0]] := by
  decide

/-! The amended C6 theorem (`chunker_preload_concat`) is stated at the end
of the file: it rests on the refill-invariance development built on the
conforming-source refill lemmas below. -/

/-! ### C7: error propagation -/

/-- Unfolding `appendToBuf` on an exhausted source. -/
theorem appendToBuf_nil (buf : List Nat) (count : Nat) :
    appendToBuf [] buf count = ([], .ok (buf, 0)) := rfl

/-- Unfolding `appendToBuf` on a failing read. -/
theorem appendToBuf_cons_fail (e : Nat) (rest : List ReadRes) (buf : List Nat) (count : Nat) :
    appendToBuf (.fail e :: rest) buf count =
      if count = 0 then (.fail e :: rest, .ok (buf, 0)) else (rest, .error e) := rfl

/-- Unfolding `appendToBuf` on a successful read. -/
theorem appendToBuf_cons_bytes (data : List Nat) (rest : List ReadRes) (buf : List Nat)
    (count : Nat) :
    appendToBuf (.bytes data :: rest) buf count =
      if count = 0 then (.bytes data :: rest, .ok (buf, 0))
      else if (data.take count).length = 0 then (rest, .ok (buf, 0))
      else if (data.take count).length < count then
        match appendToBuf rest (buf ++ data.take count) (count - (data.take count).length) with
        | (rest2, .error e) => (rest2, .error e)
        | (rest2, .ok (buf2, rc)) => (rest2, .ok (buf2, (data.take count).length + rc))
      else
        (if data.length ≤ count then rest else .bytes (data.drop count) :: rest,
         .ok (buf ++ data.take count, (data.take count).length)) := rfl

/-- The remaining source, the read count, and any error produced by a
refill do not depend on the buffer contents. -/
theorem appendToBuf_indep (src : List ReadRes) (buf buf2 : List Nat) (count : Nat) :
    (appendToBuf src buf count).1 = (appendToBuf src buf2 count).1 ∧
    Except.map Prod.snd (appendToBuf src buf count).2 =
      Except.map Prod.snd (appendToBuf src buf2 count).2 := by
  induction src generalizing buf buf2 count with
  | nil => exact ⟨rfl, rfl⟩
  | cons head rest ih =>
    cases head with
    | fail e =>
      rw [appendToBuf_cons_fail, appendToBuf_cons_fail]
      by_cases hc : count = 0
      · rw [if_pos hc, if_pos hc]
        exact ⟨rfl, rfl⟩
      · rw [if_neg hc, if_neg hc]
        exact ⟨rfl, rfl⟩
    | bytes data =>
      rw [appendToBuf_cons_bytes, appendToBuf_cons_bytes]
      by_cases hc : count = 0
      · rw [if_pos hc, if_pos hc]
        exact ⟨rfl, rfl⟩
      · rw [if_neg hc, if_neg hc]
        by_cases h0 : (data.take count).length = 0
        · rw [if_pos h0, if_pos h0]
          exact ⟨rfl, rfl⟩
        · rw [if_neg h0, if_neg h0]
          by_cases hlt : (data.take count).length < count
          · rw [if_pos hlt, if_pos hlt]
            obtain ⟨ihr, ihe⟩ :=
              ih (buf ++ data.take count) (buf2 ++ data.take count)
                (count - (data.take count).length)
            rcases hA : appendToBuf rest (buf ++ data.take count)
                (count - (data.take count).length) with ⟨r1, e1⟩
            rcases hB : appendToBuf rest (buf2 ++ data.take count)
                (count - (data.take count).length) with ⟨r2, e2⟩
            rw [hA, hB] at ihr ihe
            have ihr2 : r1 = r2 := ihr
            subst ihr2
            cases e1 with
            | error a =>
              cases e2 with
              | error b =>
                have hab : Except.error (ε := Nat) (α := Nat) a = Except.error b := ihe
                injection hab with hab2
                subst hab2
                exact ⟨rfl, rfl⟩
              | ok w =>
                exact absurd (show Except.error a = Except.ok w.2 from ihe) (by simp)
            | ok v =>
              cases e2 with
              | error b =>
                exact absurd (show Except.ok v.2 = Except.error b from ihe) (by simp)
              | ok w =>
                rcases v with ⟨vb, vrc⟩
                rcases w with ⟨wb, wrc⟩
                have hvw : Except.ok (ε := Nat) (α := Nat) vrc = Except.ok wrc := ihe
                injection hvw with hvw2
                subst hvw2
                exact ⟨rfl, rfl⟩
          · rw [if_neg hlt, if_neg hlt]
            exact ⟨rfl, rfl⟩

/-- An error surfaced by a refill came from a failing read of the source. -/
theorem appendToBuf_error_mem (src : List ReadRes) (buf : List Nat) (count e : Nat)
    (h : (appendToBuf src buf count).2 = .error e) : ReadRes.fail e ∈ src := by
  induction src generalizing buf count with
  | nil => exact absurd (show Except.ok (buf, 0) = Except.error e from h) (by simp)
  | cons head rest ih =>
    cases head with
    | fail e' =>
      rw [appendToBuf_cons_fail] at h
      by_cases hc : count = 0
      · rw [if_pos hc] at h
        exact absurd (show Except.ok (buf, 0) = Except.error e from h) (by simp)
      · rw [if_neg hc] at h
        have h2 : Except.error (ε := Nat) (α := List Nat × Nat) e' = Except.error e := h
        injection h2 with h3
        rw [← h3]
        exact List.mem_cons_self _ _
    | bytes data =>
      rw [appendToBuf_cons_bytes] at h
      by_cases hc : count = 0
      · rw [if_pos hc] at h
        exact absurd (show Except.ok (buf, 0) = Except.error e from h) (by simp)
      · rw [if_neg hc] at h
        by_cases h0 : (data.take count).length = 0
        · rw [if_pos h0] at h
          exact absurd (show Except.ok (buf, 0) = Except.error e from h) (by simp)
        · rw [if_neg h0] at h
          by_cases hlt : (data.take count).length < count
          · rw [if_pos hlt] at h
            rcases hA : appendToBuf rest (buf ++ data.take count)
                (count - (data.take count).length) with ⟨r1, e1⟩
            rw [hA] at h
            cases e1 with
            | error a =>
              exact List.mem_cons_of_mem _ (ih _ _ (by rw [hA]; exact h))
            | ok v =>
              rcases v with ⟨vb, vrc⟩
              exact absurd
                (show Except.ok (vb, (data.take count).length + vrc) = Except.error e from h)
                (by simp)
          · rw [if_neg hlt] at h
            exact absurd
              (show Except.ok (buf ++ data.take count, (data.take count).length) =
                Except.error e from h) (by simp)

/-- Failing reads in the source remaining after a refill were already in
the source before it. -/
theorem appendToBuf_rest_fail_mem (src : List ReadRes) (buf : List Nat) (count e : Nat)
    (h : ReadRes.fail e ∈ (appendToBuf src buf count).1) : ReadRes.fail e ∈ src := by
  induction src generalizing buf count with
  | nil => exact absurd (show ReadRes.fail e ∈ ([] : List ReadRes) from h) (by simp)
  | cons head rest ih =>
    cases head with
    | fail e' =>
      rw [appendToBuf_cons_fail] at h
      by_cases hc : count = 0
      · rw [if_pos hc] at h
        exact h
      · rw [if_neg hc] at h
        exact List.mem_cons_of_mem _ h
    | bytes data =>
      rw [appendToBuf_cons_bytes] at h
      by_cases hc : count = 0
      · rw [if_pos hc] at h
        exact h
      · rw [if_neg hc] at h
        by_cases h0 : (data.take count).length = 0
        · rw [if_pos h0] at h
          exact List.mem_cons_of_mem _ h
        · rw [if_neg h0] at h
          by_cases hlt : (data.take count).length < count
          · rw [if_pos hlt] at h
            rcases hA : appendToBuf rest (buf ++ data.take count)
                (count - (data.take count).length) with ⟨r1, e1⟩
            rw [hA] at h
            cases e1 with
            | error a =>
              exact List.mem_cons_of_mem _ (ih _ _ (by rw [hA]; exact h))
            | ok v =>
              rcases v with ⟨vb, vrc⟩
              exact List.mem_cons_of_mem _ (ih _ _ (by rw [hA]; exact h))
          · rw [if_neg hlt] at h
            by_cases hfull : data.length ≤ count
            · rw [if_pos hfull] at h
              exact List.mem_cons_of_mem _ h
            · rw [if_neg hfull] at h
              have h2 : ReadRes.fail e ∈ ReadRes.bytes (data.drop count) :: rest := h
              rcases List.mem_cons.mp h2 with h3 | h3
              · exact absurd h3 (by simp)
              · exact List.mem_cons_of_mem _ h3

/-- Unfolding `scanReadsResult` at a failing refill. -/
theorem scanReadsResult_step_err (fuel : Nat) (src rest : List ReadRes) (e : Nat)
    (happ : appendToBuf src [] CHUNKER_BUF_SIZE = (rest, .error e)) :
    scanReadsResult (fuel + 1) src = .error e := by
  conv_lhs => rw [scanReadsResult]
  split
  · rename_i heq
    rw [happ] at heq
    injection heq with h1 h2
    injection h2 with h3
    rw [h3]
  · rename_i heq
    rw [happ] at heq
    injection heq with h1 h2
    exact absurd h2 (by simp)

/-- Unfolding `scanReadsResult` at a successful refill. -/
theorem scanReadsResult_step_ok (fuel : Nat) (src rest : List ReadRes) (buf : List Nat)
    (rc : Nat) (happ : appendToBuf src [] CHUNKER_BUF_SIZE = (rest, .ok (buf, rc))) :
    scanReadsResult (fuel + 1) src = if rc = 0 then .ok () else scanReadsResult fuel rest := by
  conv_lhs => rw [scanReadsResult]
  split
  · rename_i heq
    rw [happ] at heq
    injection heq with h1 h2
    exact absurd h2 (by simp)
  · rename_i rest' buf' rc' heq
    rw [happ] at heq
    injection heq with h1 h2
    injection h2 with h3
    injection h3 with h4 h5
    subst h1
    subst h5
    rfl

/-- The Ok/Err outcome of the scan is a function of the source's read
results alone. -/
theorem scanLoop_result_eq_reads (minS maxS mask limit fuel : Nat) (src : List ReadRes)
    (s : ScanState) :
    (scanLoop minS maxS mask limit fuel src s).2 = scanReadsResult fuel src := by
  induction fuel generalizing src s with
  | zero => rfl
  | succ n ih =>
    obtain ⟨hrest, hmap⟩ := appendToBuf_indep src s.source_buf [] CHUNKER_BUF_SIZE
    rcases hA : appendToBuf src s.source_buf CHUNKER_BUF_SIZE with ⟨r1, e1⟩
    rcases hB : appendToBuf src [] CHUNKER_BUF_SIZE with ⟨r2, e2⟩
    rw [hA, hB] at hrest hmap
    have hrest2 : r1 = r2 := hrest
    subst hrest2
    cases e1 with
    | error a =>
      cases e2 with
      | error b =>
        have hab : Except.error (ε := Nat) (α := Nat) a = Except.error b := hmap
        injection hab with hab2
        subst hab2
        rw [scanLoop_step_err minS maxS mask limit n src r1 s a hA,
          scanReadsResult_step_err n src r1 a hB]
      | ok w =>
        exact absurd (show Except.error a = Except.ok w.2 from hmap) (by simp)
    | ok v =>
      cases e2 with
      | error b =>
        exact absurd (show Except.ok v.2 = Except.error b from hmap) (by simp)
      | ok w =>
        rcases v with ⟨b1, rc1⟩
        rcases w with ⟨b2, rc2⟩
        have hvw : Except.ok (ε := Nat) (α := Nat) rc1 = Except.ok rc2 := hmap
        injection hvw with hvw2
        subst hvw2
        by_cases hrc0 : rc1 = 0
        · subst hrc0
          rw [scanLoop_step_eof minS maxS mask limit n src r1 s b1 hA,
            scanReadsResult_step_ok n src r1 b2 0 hB]
          rfl
        · rw [scanLoop_step_ok minS maxS mask limit n src r1 s b1 rc1 hA hrc0,
            scanReadsResult_step_ok n src r1 b2 rc1 hB, if_neg hrc0]
          exact ih r1 _

/-- A failing outcome of `scanReadsResult` names an error of some read of
the source. -/
theorem scanReadsResult_error_mem (fuel : Nat) (src : List ReadRes) (e : Nat)
    (h : scanReadsResult fuel src = .error e) : ReadRes.fail e ∈ src := by
  induction fuel generalizing src with
  | zero => exact absurd (show Except.ok () = Except.error e from h) (by simp)
  | succ n ih =>
    rcases hA : appendToBuf src [] CHUNKER_BUF_SIZE with ⟨rest, res⟩
    cases res with
    | error e' =>
      rw [scanReadsResult_step_err n src rest e' hA] at h
      have h2 : Except.error (ε := Nat) (α := Unit) e' = Except.error e := h
      injection h2 with h3
      rw [← h3]
      exact appendToBuf_error_mem src [] CHUNKER_BUF_SIZE e' (by rw [hA])
    | ok v =>
      rcases v with ⟨buf, rc⟩
      rw [scanReadsResult_step_ok n src rest buf rc hA] at h
      by_cases hrc : rc = 0
      · rw [if_pos hrc] at h
        exact absurd h (by simp)
      · rw [if_neg hrc] at h
        exact appendToBuf_rest_fail_mem src [] CHUNKER_BUF_SIZE e (by rw [hA]; exact ih rest h)

/-- C7: `Chunker::scan` returns `Err(e)` exactly when driving the refills
over the source's read results does (`scanReadsResult`), the error of the
failing read being passed through unmodified; an error implies some source
read failed with that very error; and a source with no failing read yields
`Ok`.  In this embedding the chunk list returned beside an error is by
construction the callback trace accumulated strictly before the failing
refill, so no callback fires after the failing read and the earlier
callbacks are unchanged. -/
theorem chunker_scan_error (p : ChunkerParams) (pre : List Nat) (src : List ReadRes) :
    (Chunker.scan p pre src).2 = scanReadsResult (measureSrc src + 1) src ∧
    (∀ e, (Chunker.scan p pre src).2 = .error e → ReadRes.fail e ∈ src) ∧
    ((∀ r ∈ src, ∀ e, r ≠ ReadRes.fail e) → (Chunker.scan p pre src).2 = .ok ()) := by
  have hA : (Chunker.scan p pre src).2 = scanReadsResult (measureSrc src + 1) src :=
    scanLoop_result_eq_reads _ _ _ _ _ src _
  refine ⟨hA, fun e he => scanReadsResult_error_mem _ src e (hA ▸ he), fun hfree => ?_⟩
  rcases hres : (Chunker.scan p pre src).2 with e | u
  · exact absurd rfl (hfree _ (scanReadsResult_error_mem _ src e (hA ▸ hres)) e)
  · cases u
    rfl

/-- Witness for C7: a source that immediately fails with error 7. -/
theorem chunker_scan_error_witness :
    (Chunker.scan paramsSmall [] [ReadRes.fail 7]).2 = .error 7 ∧
    ReadRes.fail 7 ∈ [ReadRes.fail 7] :=
  ⟨by decide, (chunker_scan_error paramsSmall [] [ReadRes.fail 7]).2.1 7 (by decide)⟩

/-! ### C2: coverage, contiguity and the final residual chunk -/

theorem joinData_nil : joinData [] = [] := rfl

theorem joinData_cons (c : Chunk) (l : List Chunk) :
    joinData (c :: l) = c.data ++ joinData l := by
  simp [joinData]

theorem joinData_append (l : List Chunk) (c : Chunk) :
    joinData (l ++ [c]) = joinData l ++ c.data := by
  simp [joinData]

theorem chunksContiguous_append (l : List Chunk) (c : Chunk) (off : Nat)
    (hl : chunksContiguous off l = true) (hc : c.offset = off + (joinData l).length) :
    chunksContiguous off (l ++ [c]) = true := by
  induction l generalizing off with
  | nil =>
    simp only [joinData_nil, List.length_nil, Nat.add_zero] at hc
    simp [chunksContiguous, hc]
  | cons x t ihl =>
    simp only [List.cons_append, chunksContiguous, Bool.and_eq_true] at hl ⊢
    refine ⟨hl.1, ihl (off + x.data.length) hl.2 ?_⟩
    rw [hc, joinData_cons, List.length_append]
    omega

/-- Unfolding `initLoop` one iteration. -/
theorem initLoop_succ (fuel : Nat) (s : ScanState) :
    initLoop (fuel + 1) s =
      if h : s.buzhash.valid = false ∧ s.buf_index < s.source_buf.length then
        initLoop fuel
          { s with
            buzhash := s.buzhash.init (s.source_buf.get ⟨s.buf_index, h.2⟩)
            buf_index := s.buf_index + 1
            source_index := s.source_index + 1 }
      else s := rfl

/-- The initialization loop: leaves the buffer, chunk start and chunks
untouched, advances `buf_index` and `source_index` in lock step within the
buffer, and — given enough fuel — stops only with a valid hash or at the
end of the buffer. -/
theorem initLoop_spec (fuel : Nat) (s : ScanState) :
    (initLoop fuel s).source_buf = s.source_buf ∧
    (initLoop fuel s).chunk_start = s.chunk_start ∧
    (initLoop fuel s).chunks = s.chunks ∧
    (∃ k, (initLoop fuel s).buf_index = s.buf_index + k ∧
      (initLoop fuel s).source_index = s.source_index + k) ∧
    (s.buf_index ≤ s.source_buf.length →
      (initLoop fuel s).buf_index ≤ s.source_buf.length) ∧
    (s.buf_index ≤ s.source_buf.length → s.source_buf.length - s.buf_index ≤ fuel →
      (initLoop fuel s).buzhash.valid = true ∨
        (initLoop fuel s).buf_index = s.source_buf.length) := by
  induction fuel generalizing s with
  | zero =>
    refine ⟨rfl, rfl, rfl, ⟨0, rfl, rfl⟩, fun h => h, fun hle hf => Or.inr ?_⟩
    show s.buf_index = s.source_buf.length
    omega
  | succ n ih =>
    rw [initLoop_succ]
    by_cases hg : s.buzhash.valid = false ∧ s.buf_index < s.source_buf.length
    · rw [dif_pos hg]
      have hglt : s.buf_index < s.source_buf.length := hg.2
      set t : ScanState :=
        { s with
          buzhash := s.buzhash.init (s.source_buf.get ⟨s.buf_index, hg.2⟩)
          buf_index := s.buf_index + 1
          source_index := s.source_index + 1 } with ht
      have htb : t.source_buf = s.source_buf := rfl
      have hti : t.buf_index = s.buf_index + 1 := rfl
      have hts : t.source_index = s.source_index + 1 := rfl
      have htc : t.chunk_start = s.chunk_start := rfl
      have htk : t.chunks = s.chunks := rfl
      obtain ⟨ib, ic, ik, ⟨k, hbk, hsk⟩, ile, iexit⟩ := ih t
      rw [htb] at ib ile iexit
      rw [hti] at hbk ile iexit
      rw [hts] at hsk
      rw [htc] at ic
      rw [htk] at ik
      exact ⟨ib, ic, ik, ⟨k + 1, by omega, by omega⟩, fun h => ile (by omega),
        fun hle hf => iexit (by omega) (by omega)⟩
    · rw [dif_neg hg]
      refine ⟨rfl, rfl, rfl, ⟨0, rfl, rfl⟩, fun h => h, fun hle hf => ?_⟩
      by_cases hv : s.buzhash.valid = true
      · exact Or.inl hv
      · have hvf : s.buzhash.valid = false := by
          revert hv
          cases s.buzhash.valid <;> simp
        have hnlt : ¬ s.buf_index < s.source_buf.length := fun hlt => hg ⟨hvf, hlt⟩
        exact Or.inr (by omega)

/-- Unfolding `scanBuf` one iteration (the local `let`s of the definition
expanded). -/
theorem scanBuf_succ (minS maxS mask limit fuel : Nat) (s : ScanState) :
    scanBuf minS maxS mask limit (fuel + 1) s =
      if h : s.buf_index < s.source_buf.length then
        if cutDecision minS maxS mask (s.source_index + 1 - s.chunk_start)
            (if limit ≤ s.source_index + 1 - s.chunk_start then
              s.buzhash.input (s.source_buf.get ⟨s.buf_index, h⟩)
            else s.buzhash).sum then
          scanBuf minS maxS mask limit fuel
            { buzhash :=
                if limit ≤ s.source_index + 1 - s.chunk_start then
                  s.buzhash.input (s.source_buf.get ⟨s.buf_index, h⟩)
                else s.buzhash
              source_buf := s.source_buf.drop (s.source_index + 1 - s.chunk_start)
              buf_index := 0
              source_index := s.source_index + 1
              chunk_start := s.source_index + 1
              chunks := s.chunks ++
                [⟨s.chunk_start, s.source_buf.take (s.source_index + 1 - s.chunk_start)⟩] }
        else
          scanBuf minS maxS mask limit fuel
            { s with
              buzhash :=
                if limit ≤ s.source_index + 1 - s.chunk_start then
                  s.buzhash.input (s.source_buf.get ⟨s.buf_index, h⟩)
                else s.buzhash
              buf_index := s.buf_index + 1
              source_index := s.source_index + 1 }
      else s := rfl

/-- The inner scan loop: consumes the buffer to its end, preserves the
bookkeeping invariant `chunk_start + buf_index = source_index`, never loses
or invents bytes (the concatenation of reported chunks plus the remaining
buffer is unchanged), preserves contiguity of the reported chunks, and
reports only non-empty chunks. -/
theorem scanBuf_spec (minS maxS mask limit fuel : Nat) (s : ScanState)
    (h1 : s.chunk_start + s.buf_index = s.source_index)
    (h0 : s.buf_index ≤ s.source_buf.length)
    (hf : s.source_buf.length - s.buf_index ≤ fuel) :
    (scanBuf minS maxS mask limit fuel s).buf_index =
      (scanBuf minS maxS mask limit fuel s).source_buf.length ∧
    (scanBuf minS maxS mask limit fuel s).chunk_start +
        (scanBuf minS maxS mask limit fuel s).buf_index =
      (scanBuf minS maxS mask limit fuel s).source_index ∧
    joinData (scanBuf minS maxS mask limit fuel s).chunks ++
        (scanBuf minS maxS mask limit fuel s).source_buf =
      joinData s.chunks ++ s.source_buf ∧
    ((joinData s.chunks).length = s.chunk_start → chunksContiguous 0 s.chunks = true →
      (joinData (scanBuf minS maxS mask limit fuel s).chunks).length =
          (scanBuf minS maxS mask limit fuel s).chunk_start ∧
        chunksContiguous 0 (scanBuf minS maxS mask limit fuel s).chunks = true) ∧
    ((∀ c ∈ s.chunks, c.data ≠ []) →
      ∀ c ∈ (scanBuf minS maxS mask limit fuel s).chunks, c.data ≠ []) := by
  induction fuel generalizing s with
  | zero =>
    have hbe : s.buf_index = s.source_buf.length := by omega
    exact ⟨hbe, h1, rfl, fun a b => ⟨a, b⟩, fun a => a⟩
  | succ n ih =>
    rw [scanBuf_succ]
    by_cases hlt : s.buf_index < s.source_buf.length
    · rw [dif_pos hlt]
      have hcl : s.source_index + 1 - s.chunk_start = s.buf_index + 1 := by omega
      rw [hcl]
      by_cases hcut : cutDecision minS maxS mask (s.buf_index + 1)
          (if limit ≤ s.buf_index + 1 then
            s.buzhash.input (s.source_buf.get ⟨s.buf_index, hlt⟩)
          else s.buzhash).sum = true
      · rw [if_pos hcut]
        set t : ScanState :=
          { buzhash :=
              if limit ≤ s.buf_index + 1 then
                s.buzhash.input (s.source_buf.get ⟨s.buf_index, hlt⟩)
              else s.buzhash
            source_buf := s.source_buf.drop (s.buf_index + 1)
            buf_index := 0
            source_index := s.source_index + 1
            chunk_start := s.source_index + 1
            chunks := s.chunks ++
              [⟨s.chunk_start, s.source_buf.take (s.buf_index + 1)⟩] } with htdef
        have htb2 : t.source_buf = s.source_buf.drop (s.buf_index + 1) := rfl
        have hti2 : t.buf_index = 0 := rfl
        have hts2 : t.source_index = s.source_index + 1 := rfl
        have htc2 : t.chunk_start = s.source_index + 1 := rfl
        have htk2 : t.chunks =
          s.chunks ++ [⟨s.chunk_start, s.source_buf.take (s.buf_index + 1)⟩] := rfl
        obtain ⟨ja, jb, jc, jd, je⟩ :=
          ih t (by rw [htc2, hti2, hts2])
            (by rw [hti2]; exact Nat.zero_le _)
            (by rw [htb2, hti2, List.length_drop]; omega)
        refine ⟨ja, jb, ?_, ?_, ?_⟩
        · rw [jc, htk2, htb2, joinData_append, List.append_assoc, List.take_append_drop]
        · intro hjl hcont
          have hto : (joinData t.chunks).length = t.chunk_start := by
            rw [htk2, htc2, joinData_append, List.length_append, hjl]
            show s.chunk_start + (s.source_buf.take (s.buf_index + 1)).length =
              s.source_index + 1
            rw [List.length_take]
            omega
          have htcont : chunksContiguous 0 t.chunks = true := by
            rw [htk2]
            refine chunksContiguous_append _ _ 0 hcont ?_
            show s.chunk_start = 0 + (joinData s.chunks).length
            omega
          exact jd hto htcont
        · intro hne
          refine je ?_
          intro c hc
          rw [htk2] at hc
          rcases List.mem_append.mp hc with hmem | hmem
          · exact hne c hmem
          · have hceq := List.mem_singleton.mp hmem
            subst hceq
            show s.source_buf.take (s.buf_index + 1) ≠ []
            intro hnil
            have hlen := congrArg List.length hnil
            rw [List.length_take, List.length_nil] at hlen
            omega
      · rw [if_neg hcut]
        set t : ScanState :=
          { s with
            buzhash :=
              if limit ≤ s.buf_index + 1 then
                s.buzhash.input (s.source_buf.get ⟨s.buf_index, hlt⟩)
              else s.buzhash
            buf_index := s.buf_index + 1
            source_index := s.source_index + 1 } with htdef
        have htb2 : t.source_buf = s.source_buf := rfl
        have hti2 : t.buf_index = s.buf_index + 1 := rfl
        have hts2 : t.source_index = s.source_index + 1 := rfl
        have htc2 : t.chunk_start = s.chunk_start := rfl
        have htk2 : t.chunks = s.chunks := rfl
        obtain ⟨ja, jb, jc, jd, je⟩ :=
          ih t (by rw [htc2, hti2, hts2]; omega)
            (by rw [hti2, htb2]; omega)
            (by rw [hti2, htb2]; omega)
        exact ⟨ja, jb, by rw [jc, htk2, htb2],
          fun hjl hcont => jd (by rw [htk2, htc2]; exact hjl) (by rw [htk2]; exact hcont),
          fun hne => je (by rw [htk2]; exact hne)⟩
    · rw [dif_neg hlt]
      exact ⟨by omega, h1, rfl, fun a b => ⟨a, b⟩, fun a => a⟩

theorem joinSrc_cons_bytes (d : List Nat) (rest : List ReadRes) :
    joinSrc (.bytes d :: rest) = d ++ joinSrc rest := by
  simp [joinSrc]

theorem measureSrc_cons (r : ReadRes) (l : List ReadRes) :
    measureSrc (r :: l) = r.size + measureSrc l := by
  simp [measureSrc]

/-- A refill from a conforming source (nonempty reads until EOF, no
failures): it appends some delivered prefix `d` of the stream to the
buffer and reports its length; the delivered bytes plus the stream of the
remaining source make up the original stream; the remainder is again
conforming; nothing is delivered exactly for the exhausted source; and a
refill from a non-exhausted source strictly shrinks the measure. -/
theorem appendToBuf_wf (src : List ReadRes) (buf : List Nat) (count : Nat)
    (hcount : 0 < count) (hwf : wfSrc src = true) :
    ∃ d rest, appendToBuf src buf count = (rest, .ok (buf ++ d, d.length)) ∧
      joinSrc src = d ++ joinSrc rest ∧
      wfSrc rest = true ∧
      (d = [] ↔ src = []) ∧
      measureSrc rest ≤ measureSrc src ∧
      (src ≠ [] → measureSrc rest < measureSrc src) := by
  induction src generalizing buf count with
  | nil =>
    refine ⟨[], [], ?_, rfl, rfl, by simp, Nat.le_refl _, fun h => absurd rfl h⟩
    rw [appendToBuf_nil, List.append_nil]
    rfl
  | cons head rest ih =>
    cases head with
    | fail e => simp [wfSrc] at hwf
    | bytes data =>
      rw [wfSrc, List.all_cons, Bool.and_eq_true] at hwf
      have hd : data ≠ [] := by
        intro hcon
        rw [hcon] at hwf
        simp at hwf
      have hr : wfSrc rest = true := hwf.2
      rw [appendToBuf_cons_bytes]
      rw [if_neg (by omega : ¬ count = 0)]
      have hdpos : 0 < data.length := List.length_pos.mpr hd
      have htpos : 0 < (data.take count).length := by
        rw [List.length_take]
        omega
      rw [if_neg (by omega : ¬ (data.take count).length = 0)]
      by_cases hlt : (data.take count).length < count
      · have hdlc : data.length < count := by
          rw [List.length_take] at hlt
          omega
        have htake : data.take count = data := List.take_of_length_le (Nat.le_of_lt hdlc)
        rw [if_pos hlt, htake]
        obtain ⟨d', rest', happ', hjoin', hwf', hiff', hle', hlt'⟩ :=
          ih (buf ++ data) (count - data.length) (by omega) hr
        rw [happ']
        have hsize : (ReadRes.bytes data).size = data.length + 1 := rfl
        refine ⟨data ++ d', rest', ?_, ?_, hwf', ?_, ?_, fun _ => ?_⟩
        · show (rest', Except.ok ((buf ++ data) ++ d', data.length + d'.length)) =
            (rest', Except.ok (buf ++ (data ++ d'), (data ++ d').length))
          rw [List.append_assoc, List.length_append]
        · rw [joinSrc_cons_bytes, hjoin', List.append_assoc]
        · constructor
          · intro hcon
            exact absurd (List.append_eq_nil.mp hcon).1 hd
          · intro hcon
            exact absurd hcon (by simp)
        · rw [measureSrc_cons, hsize]
          omega
        · rw [measureSrc_cons, hsize]
          omega
      · by_cases hfull : data.length ≤ count
        · have htake : data.take count = data := List.take_of_length_le hfull
          rw [if_neg hlt, if_pos hfull, htake]
          refine ⟨data, rest, rfl, joinSrc_cons_bytes _ _, hr, ?_, ?_, fun _ => ?_⟩
          · constructor
            · intro hcon
              exact absurd hcon hd
            · intro hcon
              exact absurd hcon (by simp)
          · rw [measureSrc_cons]
            omega
          · rw [measureSrc_cons]
            have hsize : (ReadRes.bytes data).size = data.length + 1 := rfl
            rw [hsize]
            omega
        · rw [if_neg hlt, if_neg hfull]
          have htlen : (data.take count).length = count := by
            rw [List.length_take] at hlt ⊢
            omega
          have hdrop : data.drop count ≠ [] := by
            intro hnil
            have hlen := congrArg List.length hnil
            rw [List.length_drop, List.length_nil] at hlen
            omega
          refine ⟨data.take count, .bytes (data.drop count) :: rest, rfl, ?_, ?_, ?_, ?_,
            fun _ => ?_⟩
          · rw [joinSrc_cons_bytes, joinSrc_cons_bytes, ← List.append_assoc,
              List.take_append_drop]
          · rw [wfSrc, List.all_cons, Bool.and_eq_true]
            refine ⟨by simpa using hdrop, hr⟩
          · constructor
            · intro hcon
              have hlen := congrArg List.length hcon
              rw [htlen, List.length_nil] at hlen
              omega
            · intro hcon
              exact absurd hcon (by simp)
          · rw [measureSrc_cons, measureSrc_cons]
            have hs1 : (ReadRes.bytes (data.drop count)).size = (data.drop count).length + 1 :=
              rfl
            have hs2 : (ReadRes.bytes data).size = data.length + 1 := rfl
            rw [hs1, hs2, List.length_drop]
            omega
          · rw [measureSrc_cons, measureSrc_cons]
            have hs1 : (ReadRes.bytes (data.drop count)).size = (data.drop count).length + 1 :=
              rfl
            have hs2 : (ReadRes.bytes data).size = data.length + 1 := rfl
            rw [hs1, hs2, List.length_drop]
            omega

/-- The outer scan loop over a conforming source: returns `Ok`, reports
chunks whose concatenation is the already-buffered bytes followed by the
whole remaining stream, keeps the reported chunks contiguous, and reports
only non-empty chunks. -/
theorem scanLoop_spec (minS maxS mask limit : Nat) (fuel : Nat) (src : List ReadRes)
    (s : ScanState)
    (hfuel : measureSrc src < fuel) (hwf : wfSrc src = true)
    (h1 : s.chunk_start + s.buf_index = s.source_index)
    (h0 : s.buf_index ≤ s.source_buf.length) :
    (scanLoop minS maxS mask limit fuel src s).2 = .ok () ∧
    joinData (scanLoop minS maxS mask limit fuel src s).1 =
      joinData s.chunks ++ s.source_buf ++ joinSrc src ∧
    ((joinData s.chunks).length = s.chunk_start → chunksContiguous 0 s.chunks = true →
      chunksContiguous 0 (scanLoop minS maxS mask limit fuel src s).1 = true) ∧
    ((∀ c ∈ s.chunks, c.data ≠ []) →
      ∀ c ∈ (scanLoop minS maxS mask limit fuel src s).1, c.data ≠ []) := by
  induction fuel generalizing src s with
  | zero => omega
  | succ n ih =>
    obtain ⟨d, rest, happ, hjoin, hwfr, hiff, hle, hltm⟩ :=
      appendToBuf_wf src s.source_buf CHUNKER_BUF_SIZE (by norm_num [CHUNKER_BUF_SIZE]) hwf
    by_cases hd : d = []
    · subst hd
      have hsrc : src = [] := hiff.mp rfl
      subst hsrc
      rw [scanLoop_step_eof minS maxS mask limit n [] rest s (s.source_buf ++ []) happ]
      have hsb : s.source_buf ++ ([] : List Nat) = s.source_buf := List.append_nil _
      rw [hsb]
      by_cases hbe : s.source_buf.isEmpty = true
      · rw [if_pos hbe]
        have hnil : s.source_buf = [] := by
          cases hsbv : s.source_buf
          · rfl
          · rw [hsbv] at hbe
            simp at hbe
        refine ⟨rfl, ?_, fun _ hcont => hcont, fun hne => hne⟩
        show joinData s.chunks = joinData s.chunks ++ s.source_buf ++ joinSrc []
        rw [hnil]
        simp [joinSrc]
      · rw [if_neg hbe]
        have hnn : s.source_buf ≠ [] := by
          intro hcon
          rw [hcon] at hbe
          simp at hbe
        refine ⟨rfl, ?_, ?_, ?_⟩
        · show joinData (s.chunks ++ [⟨s.chunk_start, s.source_buf⟩]) =
            joinData s.chunks ++ s.source_buf ++ joinSrc []
          rw [joinData_append]
          simp [joinSrc]
        · intro hjl hcont
          show chunksContiguous 0 (s.chunks ++ [⟨s.chunk_start, s.source_buf⟩]) = true
          refine chunksContiguous_append _ _ 0 hcont ?_
          show s.chunk_start = 0 + (joinData s.chunks).length
          omega
        · intro hne
          intro c hc
          rcases List.mem_append.mp hc with hmem | hmem
          · exact hne c hmem
          · have hceq := List.mem_singleton.mp hmem
            subst hceq
            exact hnn
    · have hsrcne : src ≠ [] := fun hcon => hd (hiff.mpr hcon)
      have hrc : d.length ≠ 0 := fun hcon => hd (List.length_eq_zero.mp hcon)
      rw [scanLoop_step_ok minS maxS mask limit n src rest s (s.source_buf ++ d) d.length
        happ hrc]
      set sA : ScanState := { s with source_buf := s.source_buf ++ d } with hsAdef
      set s1 : ScanState := initLoop ((s.source_buf ++ d).length - s.buf_index) sA with hs1def
      set s2 : ScanState :=
        scanBuf minS maxS mask limit (s1.source_buf.length - s1.buf_index) s1 with hs2def
      have hsAb : sA.source_buf = s.source_buf ++ d := rfl
      have hsAc : sA.chunk_start = s.chunk_start := rfl
      have hsAk : sA.chunks = s.chunks := rfl
      have hsAi : sA.buf_index = s.buf_index := rfl
      have hsAs : sA.source_index = s.source_index := rfl
      obtain ⟨ib, ic, ik, ⟨k, hbk, hsk⟩, ile, _⟩ :=
        initLoop_spec ((s.source_buf ++ d).length - s.buf_index) sA
      rw [← hs1def] at ib ic ik hbk hsk ile
      rw [hsAb] at ib ile
      rw [hsAc] at ic
      rw [hsAk] at ik
      rw [hsAi] at hbk ile
      rw [hsAs] at hsk
      have e6 : s1.buf_index ≤ (s.source_buf ++ d).length := by
        refine ile ?_
        rw [List.length_append]
        omega
      have h1s1 : s1.chunk_start + s1.buf_index = s1.source_index := by
        rw [ic, hbk, hsk]
        omega
      have h0s1 : s1.buf_index ≤ s1.source_buf.length := by
        rw [ib]
        exact e6
      obtain ⟨ja, jb, jc, jd, je⟩ :=
        scanBuf_spec minS maxS mask limit (s1.source_buf.length - s1.buf_index) s1
          h1s1 h0s1 (Nat.le_refl _)
      rw [← hs2def] at ja jb jc jd je
      obtain ⟨ra, rb, rc2, rd2⟩ :=
        ih rest s2 (by have := hltm hsrcne; omega) hwfr jb (Nat.le_of_eq ja)
      refine ⟨ra, ?_, ?_, ?_⟩
      · rw [rb, jc, ik, ib, hjoin]
        simp [List.append_assoc]
      · intro hjl hcont
        refine rc2 ?_ ?_
        · exact (jd (by rw [ik, ic]; exact hjl) (by rw [ik]; exact hcont)).1
        · exact (jd (by rw [ik, ic]; exact hjl) (by rw [ik]; exact hcont)).2
      · intro hne
        exact rd2 (je (by rw [ik]; exact hne))

theorem joinSrc_map_bytes (bs : List (List Nat)) :
    joinSrc (bs.map ReadRes.bytes) = bs.flatten := by
  induction bs with
  | nil => rfl
  | cons x t iht =>
    rw [List.map_cons, joinSrc_cons_bytes, iht]
    rfl

/-- C2: for every source (given as its nonempty read deliveries; a
conforming `Read` returns 0 bytes only at EOF) and every parameter set,
`Chunker::scan` succeeds, the emitted chunks are contiguous starting at
offset 0 (hence their `(offset, length)` intervals are strictly increasing
and non-overlapping, as every chunk is non-empty), the concatenation of
their bytes equals the whole source stream — in particular the non-empty
residual buffer at EOF is emitted as the final chunk regardless of its
size.  The empty source (`bs = []`) is included: no chunk is emitted. -/
theorem chunker_scan_coverage (p : ChunkerParams) (bs : List (List Nat))
    (hbs : ∀ b ∈ bs, b ≠ []) :
    (Chunker.scan p [] (bs.map ReadRes.bytes)).2 = .ok () ∧
    joinData (Chunker.scan p [] (bs.map ReadRes.bytes)).1 = bs.flatten ∧
    chunksContiguous 0 (Chunker.scan p [] (bs.map ReadRes.bytes)).1 = true ∧
    (∀ c ∈ (Chunker.scan p [] (bs.map ReadRes.bytes)).1, c.data ≠ []) := by
  have hwf : wfSrc (bs.map ReadRes.bytes) = true := by
    rw [wfSrc, List.all_eq_true]
    intro r hr
    obtain ⟨b, hb, rfl⟩ := List.mem_map.mp hr
    simpa using hbs b hb
  have hjs : joinSrc (bs.map ReadRes.bytes) = bs.flatten := joinSrc_map_bytes bs
  unfold Chunker.scan
  obtain ⟨ha, hb2, hc2, hd2⟩ :=
    scanLoop_spec p.min_chunk_size p.max_chunk_size p.filter_mask (buzhashInputLimit p)
      (measureSrc (bs.map ReadRes.bytes) + 1) (bs.map ReadRes.bytes)
      (Chunker.initState p []) (by omega) hwf rfl (Nat.le_refl _)
  refine ⟨ha, ?_, hc2 rfl rfl, hd2 (fun c hc0 => absurd hc0 (List.not_mem_nil c))⟩
  rw [hb2]
  exact hjs

/-- Witness for C2: a single 3-byte read with the small-min parameters. -/
theorem chunker_scan_coverage_witness :
    (Chunker.scan paramsSmall [] ([[1, 2, 3]].map ReadRes.bytes)).2 = .ok () ∧
    joinData (Chunker.scan paramsSmall [] ([[1, 2, 3]].map ReadRes.bytes)).1 =
      [[1, 2, 3]].flatten ∧
    chunksContiguous 0 (Chunker.scan paramsSmall [] ([[1, 2, 3]].map ReadRes.bytes)).1 =
      true ∧
    (∀ c ∈ (Chunker.scan paramsSmall [] ([[1, 2, 3]].map ReadRes.bytes)).1, c.data ≠ []) :=
  chunker_scan_coverage paramsSmall [[1, 2, 3]] (by decide)

/-! ### C3 and C5: chunk-length bounds -/

theorem BuzHash.valid_input (h : BuzHash) (b : Nat) (hv : h.valid = true) :
    (h.input b).valid = true := by
  have hc : (h.input b).count = h.count + 1 := rfl
  have hw : (h.input b).window_size = h.window_size := rfl
  rw [BuzHash.valid, decide_eq_true_eq] at hv ⊢
  rw [hc, hw]
  omega

/-- With a valid hash the initialization loop does nothing. -/
theorem initLoop_valid_id (fuel : Nat) (s : ScanState) (hv : s.buzhash.valid = true) :
    initLoop fuel s = s := by
  cases fuel with
  | zero => rfl
  | succ n =>
    rw [initLoop_succ, dif_neg]
    intro hg
    rw [hv] at hg
    exact absurd hg.1 (by simp)

/-- The inner scan loop preserves the chunk-length bounds: with `lo` a
lower bound forced by the cut decision and `hi` a length at which the cut
decision always fires, every reported chunk is at least `lo` long, every
reported chunk other than the first is at most `hi` long, and whenever a
chunk has been reported the pending scanned-but-uncut prefix stays below
`hi` and the hash stays valid. -/
theorem scanBuf_bounds (minS maxS mask limit fuel lo hi : Nat) (s : ScanState)
    (hP1 : ∀ L d2, 1 ≤ L → cutDecision minS maxS mask L d2 = true → lo ≤ L)
    (hP2 : ∀ d2, cutDecision minS maxS mask hi d2 = true)
    (hhi1 : 1 ≤ hi)
    (h1 : s.chunk_start + s.buf_index = s.source_index)
    (hv : s.buzhash.valid = true ∨ ¬ s.buf_index < s.source_buf.length)
    (hvo : s.chunks ≠ [] → s.buzhash.valid = true)
    (hpend : s.chunks ≠ [] → s.buf_index + 1 ≤ hi)
    (hlo : ∀ c ∈ s.chunks, lo ≤ c.data.length)
    (hhi : ∀ c ∈ s.chunks.drop 1, c.data.length ≤ hi) :
    ((scanBuf minS maxS mask limit fuel s).chunks ≠ [] →
      (scanBuf minS maxS mask limit fuel s).buzhash.valid = true) ∧
    ((scanBuf minS maxS mask limit fuel s).chunks ≠ [] →
      (scanBuf minS maxS mask limit fuel s).buf_index + 1 ≤ hi) ∧
    (∀ c ∈ (scanBuf minS maxS mask limit fuel s).chunks, lo ≤ c.data.length) ∧
    (∀ c ∈ (scanBuf minS maxS mask limit fuel s).chunks.drop 1, c.data.length ≤ hi) := by
  induction fuel generalizing s with
  | zero => exact ⟨hvo, hpend, hlo, hhi⟩
  | succ n ih =>
    rw [scanBuf_succ]
    by_cases hlt : s.buf_index < s.source_buf.length
    · rw [dif_pos hlt]
      have hval : s.buzhash.valid = true := hv.resolve_right (fun hn => hn hlt)
      have hcl : s.source_index + 1 - s.chunk_start = s.buf_index + 1 := by omega
      rw [hcl]
      have hbv :
          (if limit ≤ s.buf_index + 1 then
            s.buzhash.input (s.source_buf.get ⟨s.buf_index, hlt⟩)
          else s.buzhash).valid = true := by
        by_cases hin : limit ≤ s.buf_index + 1
        · rw [if_pos hin]
          exact BuzHash.valid_input _ _ hval
        · rw [if_neg hin]
          exact hval
      by_cases hcut : cutDecision minS maxS mask (s.buf_index + 1)
          (if limit ≤ s.buf_index + 1 then
            s.buzhash.input (s.source_buf.get ⟨s.buf_index, hlt⟩)
          else s.buzhash).sum = true
      · rw [if_pos hcut]
        set t : ScanState :=
          { buzhash :=
              if limit ≤ s.buf_index + 1 then
                s.buzhash.input (s.source_buf.get ⟨s.buf_index, hlt⟩)
              else s.buzhash
            source_buf := s.source_buf.drop (s.buf_index + 1)
            buf_index := 0
            source_index := s.source_index + 1
            chunk_start := s.source_index + 1
            chunks := s.chunks ++
              [⟨s.chunk_start, s.source_buf.take (s.buf_index + 1)⟩] } with htdef
        have htk2 : t.chunks =
          s.chunks ++ [⟨s.chunk_start, s.source_buf.take (s.buf_index + 1)⟩] := rfl
        have hclen : (s.source_buf.take (s.buf_index + 1)).length = s.buf_index + 1 := by
          rw [List.length_take]
          omega
        refine ih t (show s.source_index + 1 + 0 = s.source_index + 1 by omega)
          (Or.inl hbv) (fun _ => hbv) (fun _ => hhi1) ?_ ?_
        · intro c hc
          rw [htk2] at hc
          rcases List.mem_append.mp hc with hmem | hmem
          · exact hlo c hmem
          · have hceq := List.mem_singleton.mp hmem
            subst hceq
            show lo ≤ (s.source_buf.take (s.buf_index + 1)).length
            rw [hclen]
            exact hP1 (s.buf_index + 1) _ (by omega) hcut
        · intro c hc
          rw [htk2] at hc
          cases hsc : s.chunks with
          | nil =>
            rw [hsc] at hc
            simp at hc
          | cons x xs =>
            rw [hsc, List.cons_append, List.drop_succ_cons, List.drop_zero] at hc
            rcases List.mem_append.mp hc with hmem | hmem
            · refine hhi c ?_
              rw [hsc, List.drop_succ_cons, List.drop_zero]
              exact hmem
            · have hceq := List.mem_singleton.mp hmem
              subst hceq
              show (s.source_buf.take (s.buf_index + 1)).length ≤ hi
              rw [hclen]
              exact hpend (by rw [hsc]; exact List.cons_ne_nil _ _)
      · rw [if_neg hcut]
        set t : ScanState :=
          { s with
            buzhash :=
              if limit ≤ s.buf_index + 1 then
                s.buzhash.input (s.source_buf.get ⟨s.buf_index, hlt⟩)
              else s.buzhash
            buf_index := s.buf_index + 1
            source_index := s.source_index + 1 } with htdef
        have htk2 : t.chunks = s.chunks := rfl
        have hne_hi : s.buf_index + 1 ≠ hi := by
          intro heq
          exact hcut (heq ▸ hP2 _)
        refine ih t (by show s.chunk_start + (s.buf_index + 1) = s.source_index + 1; omega)
          (Or.inl hbv) (fun _ => hbv) ?_ (by rw [htk2]; exact hlo) (by rw [htk2]; exact hhi)
        · intro hne
          rw [htk2] at hne
          have := hpend hne
          show s.buf_index + 1 + 1 ≤ hi
          omega
    · rw [dif_neg hlt]
      exact ⟨hvo, hpend, hlo, hhi⟩

theorem mem_dropLast_of_drop_one {α : Type} (l : List α) (c : α)
    (h : c ∈ (l.drop 1).dropLast) : c ∈ l.dropLast := by
  cases l with
  | nil => simp at h
  | cons x t =>
    rw [List.drop_succ_cons, List.drop_zero] at h
    cases t with
    | nil => simp at h
    | cons y ys =>
      rw [List.dropLast_cons₂]
      exact List.mem_cons_of_mem _ h

/-- The outer scan loop preserves the chunk-length bounds: every chunk
except possibly the last (the EOF residual) is at least `lo` long, and
every chunk except possibly the first (whose first window-size bytes
bypass the cut checks during hash initialization) and the last is at most
`hi` long. -/
theorem scanLoop_bounds (minS maxS mask limit fuel lo hi : Nat) (src : List ReadRes)
    (s : ScanState)
    (hP1 : ∀ L d2, 1 ≤ L → cutDecision minS maxS mask L d2 = true → lo ≤ L)
    (hP2 : ∀ d2, cutDecision minS maxS mask hi d2 = true)
    (hhi1 : 1 ≤ hi)
    (hfuel : measureSrc src < fuel) (hwf : wfSrc src = true)
    (h1 : s.chunk_start + s.buf_index = s.source_index)
    (h0 : s.buf_index ≤ s.source_buf.length)
    (hvo : s.chunks ≠ [] → s.buzhash.valid = true)
    (hpend : s.chunks ≠ [] → s.buf_index + 1 ≤ hi)
    (hlo : ∀ c ∈ s.chunks, lo ≤ c.data.length)
    (hhi : ∀ c ∈ s.chunks.drop 1, c.data.length ≤ hi) :
    (∀ c ∈ (scanLoop minS maxS mask limit fuel src s).1.dropLast, lo ≤ c.data.length) ∧
    (∀ c ∈ ((scanLoop minS maxS mask limit fuel src s).1.drop 1).dropLast,
      c.data.length ≤ hi) := by
  induction fuel generalizing src s with
  | zero => omega
  | succ n ih =>
    obtain ⟨d, rest, happ, hjoin, hwfr, hiff, hle, hltm⟩ :=
      appendToBuf_wf src s.source_buf CHUNKER_BUF_SIZE (by norm_num [CHUNKER_BUF_SIZE]) hwf
    by_cases hd : d = []
    · subst hd
      have hsrc : src = [] := hiff.mp rfl
      subst hsrc
      rw [scanLoop_step_eof minS maxS mask limit n [] rest s (s.source_buf ++ []) happ]
      have hsb : s.source_buf ++ ([] : List Nat) = s.source_buf := List.append_nil _
      rw [hsb]
      by_cases hbe : s.source_buf.isEmpty = true
      · rw [if_pos hbe]
        refine ⟨fun c hc => hlo c (List.dropLast_subset _ hc), fun c hc => ?_⟩
        exact hhi c (List.dropLast_subset _ hc)
      · rw [if_neg hbe]
        constructor
        · intro c hc
          rw [List.dropLast_concat] at hc
          exact hlo c hc
        · intro c hc
          cases hsc : s.chunks with
          | nil =>
            rw [hsc] at hc
            simp at hc
          | cons x xs =>
            rw [hsc, List.cons_append, List.drop_succ_cons, List.drop_zero,
              List.dropLast_concat] at hc
            refine hhi c ?_
            rw [hsc, List.drop_succ_cons, List.drop_zero]
            exact hc
    · have hsrcne : src ≠ [] := fun hcon => hd (hiff.mpr hcon)
      have hrc : d.length ≠ 0 := fun hcon => hd (List.length_eq_zero.mp hcon)
      rw [scanLoop_step_ok minS maxS mask limit n src rest s (s.source_buf ++ d) d.length
        happ hrc]
      set sA : ScanState := { s with source_buf := s.source_buf ++ d } with hsAdef
      set s1 : ScanState := initLoop ((s.source_buf ++ d).length - s.buf_index) sA with hs1def
      set s2 : ScanState :=
        scanBuf minS maxS mask limit (s1.source_buf.length - s1.buf_index) s1 with hs2def
      obtain ⟨ib, ic, ik, ⟨k, hbk, hsk⟩, ile, iexit⟩ :=
        initLoop_spec ((s.source_buf ++ d).length - s.buf_index) sA
      rw [← hs1def] at ib ic ik hbk hsk ile iexit
      have hsAb : sA.source_buf = s.source_buf ++ d := rfl
      have hsAc : sA.chunk_start = s.chunk_start := rfl
      have hsAk : sA.chunks = s.chunks := rfl
      have hsAi : sA.buf_index = s.buf_index := rfl
      have hsAs : sA.source_index = s.source_index := rfl
      rw [hsAb] at ib ile iexit
      rw [hsAc] at ic
      rw [hsAk] at ik
      rw [hsAi] at hbk ile iexit
      rw [hsAs] at hsk
      have hlen0 : s.buf_index ≤ (s.source_buf ++ d).length := by
        rw [List.length_append]
        omega
      have e6 : s1.buf_index ≤ (s.source_buf ++ d).length := ile hlen0
      have h1s1 : s1.chunk_start + s1.buf_index = s1.source_index := by
        rw [ic, hbk, hsk]
        omega
      have h0s1 : s1.buf_index ≤ s1.source_buf.length := by
        rw [ib]
        exact e6
      have hv1 : s1.buzhash.valid = true ∨ ¬ s1.buf_index < s1.source_buf.length := by
        rcases iexit hlen0 (Nat.le_refl _) with hval | hbeq
        · exact Or.inl hval
        · right
          rw [ib, hbeq]
          omega
      have hchvo : (s1.chunks ≠ [] → s1.buzhash.valid = true) ∧
          (s1.chunks ≠ [] → s1.buf_index + 1 ≤ hi) := by
        by_cases hemp : s.chunks = []
        · rw [ik, hemp]
          exact ⟨fun h => absurd rfl h, fun h => absurd rfl h⟩
        · have hval := hvo hemp
          have hs1eq : s1 = sA := by
            rw [hs1def]
            exact initLoop_valid_id _ _ hval
          constructor
          · intro _
            rw [hs1eq]
            exact hval
          · intro _
            rw [hs1eq, hsAi]
            exact hpend hemp
      obtain ⟨kvalid, kpend, klo, khi⟩ :=
        scanBuf_bounds minS maxS mask limit (s1.source_buf.length - s1.buf_index) lo hi s1
          hP1 hP2 hhi1 h1s1 hv1 hchvo.1 hchvo.2
          (by rw [ik]; exact hlo) (by rw [ik]; exact hhi)
      rw [← hs2def] at kvalid kpend klo khi
      obtain ⟨ja, jb, _, _, _⟩ :=
        scanBuf_spec minS maxS mask limit (s1.source_buf.length - s1.buf_index) s1
          h1s1 h0s1 (Nat.le_refl _)
      rw [← hs2def] at ja jb
      exact ih rest s2 (by have := hltm hsrcne; omega) hwfr jb (Nat.le_of_eq ja)
        kvalid kpend klo khi

/-- A refill never grows the source measure. -/
theorem appendToBuf_measure_le (src : List ReadRes) (buf : List Nat) (count : Nat) :
    measureSrc (appendToBuf src buf count).1 ≤ measureSrc src := by
  induction src generalizing buf count with
  | nil => exact Nat.le_refl _
  | cons head rest ih =>
    cases head with
    | fail e =>
      rw [appendToBuf_cons_fail]
      by_cases hc : count = 0
      · rw [if_pos hc]
      · rw [if_neg hc]
        show measureSrc rest ≤ measureSrc (ReadRes.fail e :: rest)
        rw [measureSrc_cons]
        omega
    | bytes data =>
      rw [appendToBuf_cons_bytes]
      by_cases hc : count = 0
      · rw [if_pos hc]
      · rw [if_neg hc]
        by_cases h0 : (data.take count).length = 0
        · rw [if_pos h0]
          show measureSrc rest ≤ measureSrc (ReadRes.bytes data :: rest)
          rw [measureSrc_cons]
          omega
        · rw [if_neg h0]
          by_cases hlt : (data.take count).length < count
          · rw [if_pos hlt]
            have hrec := ih (buf ++ data.take count) (count - (data.take count).length)
            rcases hA : appendToBuf rest (buf ++ data.take count)
                (count - (data.take count).length) with ⟨r1, e1⟩
            rw [hA] at hrec
            have hrec2 : measureSrc r1 ≤ measureSrc rest := hrec
            cases e1 with
            | error a =>
              show measureSrc r1 ≤ measureSrc (ReadRes.bytes data :: rest)
              rw [measureSrc_cons]
              omega
            | ok v =>
              rcases v with ⟨vb, vrc⟩
              show measureSrc r1 ≤ measureSrc (ReadRes.bytes data :: rest)
              rw [measureSrc_cons]
              omega
          · rw [if_neg hlt]
            by_cases hfull : data.length ≤ count
            · rw [if_pos hfull]
              show measureSrc rest ≤ measureSrc (ReadRes.bytes data :: rest)
              rw [measureSrc_cons]
              omega
            · rw [if_neg hfull]
              show measureSrc (ReadRes.bytes (data.drop count) :: rest) ≤
                measureSrc (ReadRes.bytes data :: rest)
              rw [measureSrc_cons, measureSrc_cons]
              have hs1 : (ReadRes.bytes (data.drop count)).size =
                (data.drop count).length + 1 := rfl
              have hs2 : (ReadRes.bytes data).size = data.length + 1 := rfl
              rw [hs1, hs2, List.length_drop]
              omega

/-- A refill that reads at least one byte strictly shrinks the source
measure. -/
theorem appendToBuf_measure_lt (src : List ReadRes) (buf : List Nat) (count : Nat)
    (rest : List ReadRes) (b2 : List Nat) (rc : Nat)
    (h : appendToBuf src buf count = (rest, .ok (b2, rc))) (hrc : rc ≠ 0) :
    measureSrc rest < measureSrc src := by
  induction src generalizing buf count rest b2 rc with
  | nil =>
    rw [appendToBuf_nil] at h
    injection h with h1 h2
    injection h2 with h3
    injection h3 with h4 h5
    exact absurd h5.symm hrc
  | cons head rest0 ih =>
    cases head with
    | fail e =>
      rw [appendToBuf_cons_fail] at h
      by_cases hc : count = 0
      · rw [if_pos hc] at h
        injection h with h1 h2
        injection h2 with h3
        injection h3 with h4 h5
        exact absurd h5.symm hrc
      · rw [if_neg hc] at h
        injection h with h1 h2
        exact absurd h2 (by simp)
    | bytes data =>
      rw [appendToBuf_cons_bytes] at h
      by_cases hc : count = 0
      · rw [if_pos hc] at h
        injection h with h1 h2
        injection h2 with h3
        injection h3 with h4 h5
        exact absurd h5.symm hrc
      · rw [if_neg hc] at h
        by_cases h0 : (data.take count).length = 0
        · rw [if_pos h0] at h
          injection h with h1 h2
          injection h2 with h3
          injection h3 with h4 h5
          exact absurd h5.symm hrc
        · rw [if_neg h0] at h
          by_cases hlt : (data.take count).length < count
          · rw [if_pos hlt] at h
            have hmle := appendToBuf_measure_le rest0 (buf ++ data.take count)
              (count - (data.take count).length)
            rcases hA : appendToBuf rest0 (buf ++ data.take count)
                (count - (data.take count).length) with ⟨r1, e1⟩
            rw [hA] at h hmle
            have hmle2 : measureSrc r1 ≤ measureSrc rest0 := hmle
            cases e1 with
            | error a =>
              exact absurd (show Except.error a = Except.ok (b2, rc) from
                congrArg Prod.snd h) (by simp)
            | ok v =>
              rcases v with ⟨vb, vrc⟩
              have hr : r1 = rest := congrArg Prod.fst h
              rw [← hr]
              show measureSrc r1 < measureSrc (ReadRes.bytes data :: rest0)
              rw [measureSrc_cons]
              have hsz : (ReadRes.bytes data).size = data.length + 1 := rfl
              rw [hsz]
              omega
          · rw [if_neg hlt] at h
            by_cases hfull : data.length ≤ count
            · rw [if_pos hfull] at h
              have hr : rest0 = rest := congrArg Prod.fst h
              rw [← hr]
              show measureSrc rest0 < measureSrc (ReadRes.bytes data :: rest0)
              rw [measureSrc_cons]
              have hsz : (ReadRes.bytes data).size = data.length + 1 := rfl
              rw [hsz]
              omega
            · rw [if_neg hfull] at h
              have hr : ReadRes.bytes (data.drop count) :: rest0 = rest :=
                congrArg Prod.fst h
              rw [← hr]
              show measureSrc (ReadRes.bytes (data.drop count) :: rest0) <
                measureSrc (ReadRes.bytes data :: rest0)
              rw [measureSrc_cons, measureSrc_cons]
              have hs1 : (ReadRes.bytes (data.drop count)).size =
                (data.drop count).length + 1 := rfl
              have hs2 : (ReadRes.bytes data).size = data.length + 1 := rfl
              rw [hs1, hs2, List.length_drop]
              omega

/-- The fuel of the embedded scan loop is an artifact: any bound above the
source measure gives the same result — the loop always reaches its exit
(termination). -/
theorem scanLoop_fuel_irrel (minS maxS mask limit : Nat) (f1 f2 : Nat) (src : List ReadRes)
    (s : ScanState) (h1f : measureSrc src < f1) (h2f : measureSrc src < f2) :
    scanLoop minS maxS mask limit f1 src s = scanLoop minS maxS mask limit f2 src s := by
  induction f1 generalizing f2 src s with
  | zero => omega
  | succ n ih =>
    cases f2 with
    | zero => omega
    | succ m =>
      rcases hA : appendToBuf src s.source_buf CHUNKER_BUF_SIZE with ⟨rest, res⟩
      cases res with
      | error e =>
        rw [scanLoop_step_err minS maxS mask limit n src rest s e hA,
          scanLoop_step_err minS maxS mask limit m src rest s e hA]
      | ok v =>
        rcases v with ⟨buf, rc⟩
        by_cases hrc : rc = 0
        · subst hrc
          rw [scanLoop_step_eof minS maxS mask limit n src rest s buf hA,
            scanLoop_step_eof minS maxS mask limit m src rest s buf hA]
        · rw [scanLoop_step_ok minS maxS mask limit n src rest s buf rc hA hrc,
            scanLoop_step_ok minS maxS mask limit m src rest s buf rc hA hrc]
          have hmlt : measureSrc rest < measureSrc src :=
            appendToBuf_measure_lt src s.source_buf CHUNKER_BUF_SIZE rest buf rc hA hrc
          exact ih m rest _ (by omega) (by omega)

theorem wfSrc_map_bytes (bs : List (List Nat)) (hbs : ∀ b ∈ bs, b ≠ []) :
    wfSrc (bs.map ReadRes.bytes) = true := by
  rw [wfSrc, List.all_eq_true]
  intro r hr
  obtain ⟨b, hb, rfl⟩ := List.mem_map.mp hr
  simpa using hbs b hb

/-- C3 counterexample: with window 3, `min = 1`, `max = 2` (a valid
parameter set per the spec: `min ≤ max`, `W ≥ 1`), scanning six zero bytes
yields a first chunk of length 4 that is not the last chunk: the first
window-size bytes are consumed by hash initialization without cut checks,
so the first chunk overshoots `max_chunk_size`. -/
theorem chunker_size_bounds_counterexample :
    (Chunker.scan paramsW3 [] [.bytes [0, 0, 0, 0, 0, 0]]).1 =
      [⟨0, [0, 0, 0, 0]⟩, ⟨4, [0, 0]⟩] ∧
    paramsW3.min_chunk_size = 1 ∧
    paramsW3.max_chunk_size = 2 ∧
    ¬ (∀ c ∈ (Chunker.scan paramsW3 [] [.bytes [0, 0, 0, 0, 0, 0]]).1.dropLast,
        paramsW3.min_chunk_size ≤ c.data.length ∧
          c.data.length ≤ paramsW3.max_chunk_size) := by
  decide

/-- C3 (amended): for every conforming source and every parameter set with
`min_chunk_size ≤ max_chunk_size` and `max_chunk_size ≥ 1`: every chunk
except possibly the last has length at least `min_chunk_size` (trivially
when `min = 0`), and every chunk except possibly the first and the last
has length at most `max_chunk_size`.  The first chunk can exceed
`max_chunk_size` when the hash window reaches past it, because the first
window-size bytes bypass the cut checks (see the counterexample). -/
theorem chunker_chunk_size_bounds (p : ChunkerParams) (bs : List (List Nat))
    (hbs : ∀ b ∈ bs, b ≠ []) (hmm : p.min_chunk_size ≤ p.max_chunk_size)
    (hmax1 : 1 ≤ p.max_chunk_size) :
    (∀ c ∈ (Chunker.scan p [] (bs.map ReadRes.bytes)).1.dropLast,
      p.min_chunk_size ≤ c.data.length) ∧
    (∀ c ∈ ((Chunker.scan p [] (bs.map ReadRes.bytes)).1.drop 1).dropLast,
      c.data.length ≤ p.max_chunk_size) := by
  have hP1 : ∀ L d2, 1 ≤ L →
      cutDecision p.min_chunk_size p.max_chunk_size p.filter_mask L d2 = true →
      p.min_chunk_size ≤ L := by
    intro L d2 h1L hcut
    simp only [cutDecision, Bool.and_eq_true, Bool.or_eq_true, decide_eq_true_eq] at hcut
    exact hcut.1
  have hP2 : ∀ d2, cutDecision p.min_chunk_size p.max_chunk_size p.filter_mask
      p.max_chunk_size d2 = true := by
    intro d2
    simp only [cutDecision, Bool.and_eq_true, Bool.or_eq_true, decide_eq_true_eq]
    exact ⟨hmm, Or.inl (Nat.le_refl _)⟩
  unfold Chunker.scan
  exact scanLoop_bounds p.min_chunk_size p.max_chunk_size p.filter_mask (buzhashInputLimit p)
    (measureSrc (bs.map ReadRes.bytes) + 1) p.min_chunk_size p.max_chunk_size
    (bs.map ReadRes.bytes) (Chunker.initState p []) hP1 hP2 hmax1 (by omega)
    (wfSrc_map_bytes bs hbs) rfl (Nat.le_refl _)
    (fun h => absurd rfl h) (fun h => absurd rfl h)
    (fun c hc => absurd hc (List.not_mem_nil c))
    (fun c hc => absurd hc (List.not_mem_nil c))

/-- Witness for C3 (amended) with the small-min parameters on one 3-byte
read. -/
theorem chunker_chunk_size_bounds_witness :
    (∀ c ∈ (Chunker.scan paramsSmall [] ([[1, 2, 3]].map ReadRes.bytes)).1.dropLast,
      paramsSmall.min_chunk_size ≤ c.data.length) ∧
    (∀ c ∈ ((Chunker.scan paramsSmall [] ([[1, 2, 3]].map ReadRes.bytes)).1.drop 1).dropLast,
      c.data.length ≤ paramsSmall.max_chunk_size) :=
  chunker_chunk_size_bounds paramsSmall [[1, 2, 3]] (by decide) (by decide) (by decide)

/-- C5 counterexample: with `min = 3 ≥ max = 2` and window 1, scanning
seven zero bytes cuts chunks of length 3 = `min_chunk_size`, not
`max_chunk_size`: the length check `chunk_length >= min_chunk_size` gates
the whole decision, so the first cut happens at `min`, not at `max`. -/
theorem chunker_min_above_max_counterexample :
    paramsMinAboveMax.min_chunk_size = 3 ∧
    paramsMinAboveMax.max_chunk_size = 2 ∧
    (Chunker.scan paramsMinAboveMax [] [.bytes [0, 0, 0, 0, 0, 0, 0]]).1 =
      [⟨0, [0, 0, 0]⟩, ⟨3, [0, 0, 0]⟩, ⟨6, [0]⟩] ∧
    ¬ (∀ c ∈ (Chunker.scan paramsMinAboveMax [] [.bytes [0, 0, 0, 0, 0, 0, 0]]).1.dropLast,
        c.data.length = paramsMinAboveMax.max_chunk_size) := by
  decide

/-- C5 (amended): when `min_chunk_size ≥ max_chunk_size`, `Chunker::scan`
still terminates on every finite conforming source — the embedded loop
reaches its exit under any step budget above the source measure, so the
result is independent of the budget — and every chunk except possibly the
first (hash-window initialization) and the last (EOF residual) is cut at
length `max(min_chunk_size, 1)`: the decision fires at the first checked
length `≥ min_chunk_size`. -/
theorem chunker_min_above_max (p : ChunkerParams) (bs : List (List Nat))
    (hbs : ∀ b ∈ bs, b ≠ []) (hmm : p.max_chunk_size ≤ p.min_chunk_size) :
    (∀ f, measureSrc (bs.map ReadRes.bytes) < f →
      scanLoop p.min_chunk_size p.max_chunk_size p.filter_mask (buzhashInputLimit p) f
        (bs.map ReadRes.bytes) (Chunker.initState p []) =
      Chunker.scan p [] (bs.map ReadRes.bytes)) ∧
    (∀ c ∈ ((Chunker.scan p [] (bs.map ReadRes.bytes)).1.drop 1).dropLast,
      c.data.length = max p.min_chunk_size 1) := by
  constructor
  · intro f hf
    exact scanLoop_fuel_irrel p.min_chunk_size p.max_chunk_size p.filter_mask
      (buzhashInputLimit p) f (measureSrc (bs.map ReadRes.bytes) + 1)
      (bs.map ReadRes.bytes) (Chunker.initState p []) hf (by omega)
  · have hP1 : ∀ L d2, 1 ≤ L →
        cutDecision p.min_chunk_size p.max_chunk_size p.filter_mask L d2 = true →
        max p.min_chunk_size 1 ≤ L := by
      intro L d2 h1L hcut
      simp only [cutDecision, Bool.and_eq_true, Bool.or_eq_true, decide_eq_true_eq] at hcut
      exact Nat.max_le.mpr ⟨hcut.1, h1L⟩
    have hP2 : ∀ d2, cutDecision p.min_chunk_size p.max_chunk_size p.filter_mask
        (max p.min_chunk_size 1) d2 = true := by
      intro d2
      simp only [cutDecision, Bool.and_eq_true, Bool.or_eq_true, decide_eq_true_eq]
      exact ⟨Nat.le_max_left _ _, Or.inl (Nat.le_trans hmm (Nat.le_max_left _ _))⟩
    have hbounds := scanLoop_bounds p.min_chunk_size p.max_chunk_size p.filter_mask
      (buzhashInputLimit p) (measureSrc (bs.map ReadRes.bytes) + 1)
      (max p.min_chunk_size 1) (max p.min_chunk_size 1)
      (bs.map ReadRes.bytes) (Chunker.initState p []) hP1 hP2 (Nat.le_max_right _ _)
      (by omega) (wfSrc_map_bytes bs hbs) rfl (Nat.le_refl _)
      (fun h => absurd rfl h) (fun h => absurd rfl h)
      (fun c hc => absurd hc (List.not_mem_nil c))
      (fun c hc => absurd hc (List.not_mem_nil c))
    intro c hc
    have hlow := hbounds.1 c (mem_dropLast_of_drop_one _ c hc)
    have hupp := hbounds.2 c hc
    omega

/-- Witness for C5 (amended): `min = 3 ≥ max = 2`, one 7-byte read. -/
theorem chunker_min_above_max_witness :
    (∀ f, measureSrc ([[0, 0, 0, 0, 0, 0, 0]].map ReadRes.bytes) < f →
      scanLoop paramsMinAboveMax.min_chunk_size paramsMinAboveMax.max_chunk_size
        paramsMinAboveMax.filter_mask (buzhashInputLimit paramsMinAboveMax) f
        ([[0, 0, 0, 0, 0, 0, 0]].map ReadRes.bytes) (Chunker.initState paramsMinAboveMax []) =
      Chunker.scan paramsMinAboveMax [] ([[0, 0, 0, 0, 0, 0, 0]].map ReadRes.bytes)) ∧
    (∀ c ∈ ((Chunker.scan paramsMinAboveMax []
        ([[0, 0, 0, 0, 0, 0, 0]].map ReadRes.bytes)).1.drop 1).dropLast,
      c.data.length = max paramsMinAboveMax.min_chunk_size 1) :=
  chunker_min_above_max paramsMinAboveMax [[0, 0, 0, 0, 0, 0, 0]] (by decide) (by decide)

/-! ### C6: refill-invariance of the scan over conforming sources -/

theorem list_take_succ_get (l : List Nat) (n : Nat) (h : n < l.length) :
    l.take (n + 1) = l.take n ++ [l.get ⟨n, h⟩] := by
  rw [List.take_succ]
  congr 1
  rw [List.getElem?_eq_getElem h]
  rfl

theorem list_drop_eq_get_cons (l : List Nat) (n : Nat) (h : n < l.length) :
    l.drop n = l.get ⟨n, h⟩ :: l.drop (n + 1) := List.drop_eq_getElem_cons h

/-- Unfolding `scanAbs`. -/
theorem scanAbs_def (minS maxS mask limit : Nat) (s : ScanState) (T : List Nat) :
    scanAbs minS maxS mask limit s T =
      byteScan minS maxS mask limit s.buzhash s.chunk_start
        (s.source_buf.take s.buf_index) (s.source_buf.drop s.buf_index ++ T) s.chunks := rfl

/-- Unfolding `byteScan` at end of stream. -/
theorem byteScan_nil (minS maxS mask limit : Nat) (bh : BuzHash) (cs : Nat)
    (pending : List Nat) (out : List Chunk) :
    byteScan minS maxS mask limit bh cs pending [] out =
      if pending.isEmpty then out else out ++ [⟨cs, pending⟩] := rfl

/-- Unfolding `byteScan` one byte. -/
theorem byteScan_cons (minS maxS mask limit : Nat) (bh : BuzHash) (cs : Nat)
    (pending : List Nat) (b : Nat) (future : List Nat) (out : List Chunk) :
    byteScan minS maxS mask limit bh cs pending (b :: future) out =
      if bh.valid = false then
        byteScan minS maxS mask limit (bh.init b) cs (pending ++ [b]) future out
      else
        if cutDecision minS maxS mask (pending.length + 1)
            (if limit ≤ pending.length + 1 then bh.input b else bh).sum then
          byteScan minS maxS mask limit
            (if limit ≤ pending.length + 1 then bh.input b else bh)
            (cs + (pending.length + 1)) [] future (out ++ [⟨cs, pending ++ [b]⟩])
        else
          byteScan minS maxS mask limit
            (if limit ≤ pending.length + 1 then bh.input b else bh)
            cs (pending ++ [b]) future out := rfl

/-- The initialization loop refines the byte-level reference: each
initializing step consumes the next buffered byte through the `init`
dispatch of `byteScan` (the hash is not yet valid), so the denoted
continuation is unchanged. -/
theorem initLoop_byteScan (minS maxS mask limit fuel : Nat) (s : ScanState)
    (T : List Nat) :
    scanAbs minS maxS mask limit (initLoop fuel s) T =
      scanAbs minS maxS mask limit s T := by
  induction fuel generalizing s with
  | zero => rfl
  | succ n ih =>
    rw [initLoop_succ]
    by_cases hg : s.buzhash.valid = false ∧ s.buf_index < s.source_buf.length
    · rw [dif_pos hg]
      set t : ScanState :=
        { s with
          buzhash := s.buzhash.init (s.source_buf.get ⟨s.buf_index, hg.2⟩)
          buf_index := s.buf_index + 1
          source_index := s.source_index + 1 } with htdef
      rw [ih t]
      have htb : t.source_buf = s.source_buf := rfl
      have hti : t.buf_index = s.buf_index + 1 := rfl
      have htbh : t.buzhash = s.buzhash.init (s.source_buf.get ⟨s.buf_index, hg.2⟩) := rfl
      have htc : t.chunk_start = s.chunk_start := rfl
      have htk : t.chunks = s.chunks := rfl
      rw [scanAbs_def, scanAbs_def, htb, hti, htbh, htc, htk,
        list_take_succ_get s.source_buf s.buf_index hg.2,
        list_drop_eq_get_cons s.source_buf s.buf_index hg.2, List.cons_append,
        byteScan_cons, if_pos hg.1]
    · rw [dif_neg hg]

/-- The inner scan loop refines the byte-level reference: with a valid
hash, each iteration consumes the next buffered byte through the scanning
dispatch of `byteScan` with the same chunk length, hash update, cut
decision and reported chunk, so the denoted continuation is unchanged. -/
theorem scanBuf_byteScan (minS maxS mask limit fuel : Nat) (s : ScanState) (T : List Nat)
    (h1 : s.chunk_start + s.buf_index = s.source_index)
    (hv : s.buzhash.valid = true) :
    scanAbs minS maxS mask limit (scanBuf minS maxS mask limit fuel s) T =
      scanAbs minS maxS mask limit s T := by
  induction fuel generalizing s with
  | zero => rfl
  | succ n ih =>
    rw [scanBuf_succ]
    by_cases hlt : s.buf_index < s.source_buf.length
    · rw [dif_pos hlt]
      have hcl : s.source_index + 1 - s.chunk_start = s.buf_index + 1 := by omega
      rw [hcl]
      have hbv : (if limit ≤ s.buf_index + 1 then
          s.buzhash.input (s.source_buf.get ⟨s.buf_index, hlt⟩)
        else s.buzhash).valid = true := by
        by_cases hl : limit ≤ s.buf_index + 1
        · rw [if_pos hl]
          exact BuzHash.valid_input _ _ hv
        · rw [if_neg hl]
          exact hv
      have hplen : (s.source_buf.take s.buf_index).length = s.buf_index := by
        rw [List.length_take]
        omega
      have hvnot : ¬ s.buzhash.valid = false := by
        rw [hv]
        decide
      have habs : scanAbs minS maxS mask limit s T =
          byteScan minS maxS mask limit s.buzhash s.chunk_start
            (s.source_buf.take s.buf_index)
            (s.source_buf.get ⟨s.buf_index, hlt⟩ ::
              (s.source_buf.drop (s.buf_index + 1) ++ T)) s.chunks := by
        rw [scanAbs_def, list_drop_eq_get_cons s.source_buf s.buf_index hlt,
          List.cons_append]
      rw [habs, byteScan_cons, hplen, if_neg hvnot]
      by_cases hcut : cutDecision minS maxS mask (s.buf_index + 1)
          (if limit ≤ s.buf_index + 1 then
            s.buzhash.input (s.source_buf.get ⟨s.buf_index, hlt⟩)
          else s.buzhash).sum = true
      · rw [if_pos hcut, if_pos hcut]
        set t : ScanState :=
          { buzhash :=
              if limit ≤ s.buf_index + 1 then
                s.buzhash.input (s.source_buf.get ⟨s.buf_index, hlt⟩)
              else s.buzhash
            source_buf := s.source_buf.drop (s.buf_index + 1)
            buf_index := 0
            source_index := s.source_index + 1
            chunk_start := s.source_index + 1
            chunks := s.chunks ++
              [⟨s.chunk_start, s.source_buf.take (s.buf_index + 1)⟩] } with htdef
        have htb : t.source_buf = s.source_buf.drop (s.buf_index + 1) := rfl
        have hti : t.buf_index = 0 := rfl
        have hts : t.source_index = s.source_index + 1 := rfl
        have htbh : t.buzhash =
            (if limit ≤ s.buf_index + 1 then
              s.buzhash.input (s.source_buf.get ⟨s.buf_index, hlt⟩)
            else s.buzhash) := rfl
        have htc : t.chunk_start = s.source_index + 1 := rfl
        have htk : t.chunks = s.chunks ++
            [⟨s.chunk_start, s.source_buf.take (s.buf_index + 1)⟩] := rfl
        rw [ih t (by rw [htc, hti, hts]) (by rw [htbh]; exact hbv)]
        rw [scanAbs_def, htb, hti, htbh, htc, htk, List.take_zero, List.drop_zero,
          list_take_succ_get s.source_buf s.buf_index hlt,
          (by omega : s.source_index + 1 = s.chunk_start + (s.buf_index + 1))]
      · rw [if_neg hcut, if_neg hcut]
        set t : ScanState :=
          { s with
            buzhash :=
              if limit ≤ s.buf_index + 1 then
                s.buzhash.input (s.source_buf.get ⟨s.buf_index, hlt⟩)
              else s.buzhash
            buf_index := s.buf_index + 1
            source_index := s.source_index + 1 } with htdef
        have htb : t.source_buf = s.source_buf := rfl
        have hti : t.buf_index = s.buf_index + 1 := rfl
        have hts : t.source_index = s.source_index + 1 := rfl
        have htbh : t.buzhash =
            (if limit ≤ s.buf_index + 1 then
              s.buzhash.input (s.source_buf.get ⟨s.buf_index, hlt⟩)
            else s.buzhash) := rfl
        have htc : t.chunk_start = s.chunk_start := rfl
        have htk : t.chunks = s.chunks := rfl
        rw [ih t (by rw [htc, hti, hts]; omega) (by rw [htbh]; exact hbv)]
        show byteScan minS maxS mask limit
            (if limit ≤ s.buf_index + 1 then
              s.buzhash.input (s.source_buf.get ⟨s.buf_index, hlt⟩)
            else s.buzhash)
            s.chunk_start (s.source_buf.take (s.buf_index + 1))
            (s.source_buf.drop (s.buf_index + 1) ++ T) s.chunks =
          byteScan minS maxS mask limit
            (if limit ≤ s.buf_index + 1 then
              s.buzhash.input (s.source_buf.get ⟨s.buf_index, hlt⟩)
            else s.buzhash)
            s.chunk_start
            (s.source_buf.take s.buf_index ++ [s.source_buf.get ⟨s.buf_index, hlt⟩])
            (s.source_buf.drop (s.buf_index + 1) ++ T) s.chunks
        rw [list_take_succ_get s.source_buf s.buf_index hlt]
    · rw [dif_neg hlt]

/-- The outer scan loop over a conforming source computes `byteScan` of
the stream: the chunk output depends only on the bytes the source
delivers, not on how they are partitioned into reads and refills.  The
disjunctive hypothesis rules out the one partition-sensitive situation,
a zero-byte first refill flushing a partially unscanned buffer. -/
theorem scanLoop_byteScan (minS maxS mask limit fuel : Nat) (src : List ReadRes)
    (s : ScanState)
    (hfuel : measureSrc src < fuel) (hwf : wfSrc src = true)
    (h1 : s.chunk_start + s.buf_index = s.source_index)
    (h0 : s.buf_index ≤ s.source_buf.length)
    (hstart : src ≠ [] ∨ s.buf_index = s.source_buf.length) :
    scanLoop minS maxS mask limit fuel src s =
      (scanAbs minS maxS mask limit s (joinSrc src), .ok ()) := by
  induction fuel generalizing src s with
  | zero => omega
  | succ n ih =>
    obtain ⟨d, rest, happ, hjoin, hwfr, hiff, hle, hltm⟩ :=
      appendToBuf_wf src s.source_buf CHUNKER_BUF_SIZE (by norm_num [CHUNKER_BUF_SIZE]) hwf
    by_cases hd : d = []
    · subst hd
      have hsrc : src = [] := hiff.mp rfl
      subst hsrc
      have hbi : s.buf_index = s.source_buf.length := by
        rcases hstart with hcon | h
        · exact absurd rfl hcon
        · exact h
      rw [scanLoop_step_eof minS maxS mask limit n [] rest s (s.source_buf ++ []) happ]
      rw [List.append_nil]
      rw [scanAbs_def, hbi, List.take_length, List.drop_length]
      rfl
    · have hsrcne : src ≠ [] := fun hcon => hd (hiff.mpr hcon)
      have hrc : d.length ≠ 0 := fun hcon => hd (List.length_eq_zero.mp hcon)
      rw [scanLoop_step_ok minS maxS mask limit n src rest s (s.source_buf ++ d) d.length
        happ hrc]
      set sA : ScanState := { s with source_buf := s.source_buf ++ d } with hsAdef
      set s1 : ScanState := initLoop ((s.source_buf ++ d).length - s.buf_index) sA with hs1def
      set s2 : ScanState :=
        scanBuf minS maxS mask limit (s1.source_buf.length - s1.buf_index) s1 with hs2def
      have hsAb : sA.source_buf = s.source_buf ++ d := rfl
      have hsAc : sA.chunk_start = s.chunk_start := rfl
      have hsAk : sA.chunks = s.chunks := rfl
      have hsAi : sA.buf_index = s.buf_index := rfl
      have hsAs : sA.source_index = s.source_index := rfl
      have hsAbh : sA.buzhash = s.buzhash := rfl
      obtain ⟨ib, ic, ik, ⟨k, hbk, hsk⟩, ile, iexit⟩ :=
        initLoop_spec ((s.source_buf ++ d).length - s.buf_index) sA
      rw [← hs1def] at ib ic ik hbk hsk ile iexit
      rw [hsAb] at ib ile iexit
      rw [hsAc] at ic
      rw [hsAk] at ik
      rw [hsAi] at hbk ile iexit
      rw [hsAs] at hsk
      have hblen : s.buf_index ≤ (s.source_buf ++ d).length := by
        rw [List.length_append]
        omega
      have e6 : s1.buf_index ≤ (s.source_buf ++ d).length := ile hblen
      have h1s1 : s1.chunk_start + s1.buf_index = s1.source_index := by
        rw [ic, hbk, hsk]
        omega
      have h0s1 : s1.buf_index ≤ s1.source_buf.length := by
        rw [ib]
        exact e6
      have hvs1 : s1.buzhash.valid = true ∨ s1.buf_index = s1.source_buf.length := by
        rw [ib]
        exact iexit hblen (Nat.le_refl _)
      obtain ⟨ja, jb, _, _, _⟩ :=
        scanBuf_spec minS maxS mask limit (s1.source_buf.length - s1.buf_index) s1
          h1s1 h0s1 (Nat.le_refl _)
      rw [← hs2def] at ja jb
      rw [ih rest s2 (by have := hltm hsrcne; omega) hwfr jb (Nat.le_of_eq ja) (Or.inr ja)]
      have hstep2 : scanAbs minS maxS mask limit s2 (joinSrc rest) =
          scanAbs minS maxS mask limit s1 (joinSrc rest) := by
        rcases hvs1 with hvv | hbe
        · exact scanBuf_byteScan minS maxS mask limit
            (s1.source_buf.length - s1.buf_index) s1 (joinSrc rest) h1s1 hvv
        · have hf0 : s1.source_buf.length - s1.buf_index = 0 := by omega
          rw [hs2def, hf0]
          rfl
      have hstep1 : scanAbs minS maxS mask limit s1 (joinSrc rest) =
          scanAbs minS maxS mask limit sA (joinSrc rest) := by
        rw [hs1def]
        exact initLoop_byteScan minS maxS mask limit
          ((s.source_buf ++ d).length - s.buf_index) sA (joinSrc rest)
      have hstep0 : scanAbs minS maxS mask limit sA (joinSrc rest) =
          scanAbs minS maxS mask limit s (joinSrc src) := by
        rw [scanAbs_def, scanAbs_def, hsAb, hsAc, hsAk, hsAi, hsAbh,
          List.take_append_of_le_length h0, List.drop_append_of_le_length h0,
          List.append_assoc, ← hjoin]
      rw [hstep2, hstep1, hstep0]

/-- C6 (amended): preloading is prepending the bytes to the source.  For
every parameter set, every non-empty preload `d` and every conforming
source (nonempty reads until EOF, no failures) that delivers at least one
byte, preloading `d` and scanning the source emits exactly the same
chunks and result as scanning the source that first yields `d` and then
behaves like the original — for any number of reads, any read sizes and
any total size: the per-byte cut decisions are invariant under the refill
partition of the stream.  With an empty source the two differ (see the
counterexample): the preloaded bytes are flushed unscanned at the
immediate EOF.  A non-empty first read represents the preload faithfully
because a conforming source returns 0 bytes exactly at EOF; for `d = []`
preloading is a no-op.  A failing source is excluded: the bytes delivered
within the failing refill are discarded at a point that depends on the
refill phase. -/
theorem chunker_preload_concat (p : ChunkerParams) (d : List Nat) (src : List ReadRes)
    (hd : d ≠ []) (hwf : wfSrc src = true) (hne : src ≠ []) :
    Chunker.scan p d src = Chunker.scan p [] (.bytes d :: src) := by
  have hwf2 : wfSrc (.bytes d :: src) = true := by
    rw [wfSrc, List.all_cons, Bool.and_eq_true]
    exact ⟨by simpa using hd, hwf⟩
  unfold Chunker.scan
  rw [scanLoop_byteScan p.min_chunk_size p.max_chunk_size p.filter_mask
      (buzhashInputLimit p) (measureSrc src + 1) src (Chunker.initState p d)
      (by omega) hwf rfl (Nat.zero_le _) (Or.inl hne),
    scanLoop_byteScan p.min_chunk_size p.max_chunk_size p.filter_mask
      (buzhashInputLimit p) (measureSrc (.bytes d :: src) + 1) (.bytes d :: src)
      (Chunker.initState p []) (by omega) hwf2 rfl (Nat.zero_le _)
      (Or.inl (List.cons_ne_nil _ _))]
  rw [scanAbs_def, scanAbs_def, joinSrc_cons_bytes]
  rfl

/-- Witness for C6 (amended): preload one byte before a conforming
two-read source. -/
theorem chunker_preload_concat_witness :
    Chunker.scan paramsW1 [1] [.bytes [2], .bytes [3]] =
      Chunker.scan paramsW1 [] [.bytes [1], .bytes [2], .bytes [3]] :=
  chunker_preload_concat paramsW1 [1] [.bytes [2], .bytes [3]] (by decide) (by decide)
    (by decide)
